import Mathlib

/-!
Verification development for a 3x3 tic-tac-toe engine
(source: `tic_tac_toe.py`, class `TicTacToe`).

Shallow embedding conventions:
* A cell holds `' '`, `'X'` or `'O'`; a board is a total function
  `Fin 3 → Fin 3 → Cell` (the Python 3x3 list of lists).
* Scores are extended integers `WithBot (WithTop ℤ)`:
  Python's `float('-inf')` / `float('inf')` sentinels are `⊥` / `⊤`,
  every actually computed score is an integer.
* The mutable diagnostics counter `self.call_count` is only ever
  incremented by the searches (`self.call_count += 1`) and never read
  by them, so each search function returns, next to its score, the
  total increment it applies to the counter.
* The searches are written with an explicit fuel argument (structural
  recursion); `minimax_search` / `alpha_beta_search` fix the fuel at 9,
  the number of board cells, which is shown to be always sufficient.
-/

inductive Cell where
  | empty
  | X
  | O
deriving DecidableEq, Repr

/-- Outcome of `game_status`: Python's `'X'`, `'O'`, `'Draw'` (inside
`Option`, with `none` for the ongoing game). -/
inductive GResult where
  | X
  | O
  | draw
deriving DecidableEq, Repr

/-- The 3x3 grid: `self.grid[i][j]` is `b i j`. -/
abbrev Board := Fin 3 → Fin 3 → Cell

/-- Writing one cell of a board, producing a fresh board value
(the Python code only ever writes on `copy.deepcopy` copies during
search, and on the live grid in `place_symbol`). -/
def setCell (b : Board) (i j : Fin 3) (c : Cell) : Board :=
  fun i2 j2 => if i2 = i ∧ j2 = j then c else b i2 j2

/-- `i2 ≠ i` or `j2 ≠ j`: other cells are untouched by `setCell`. -/
theorem setCell_ne (b : Board) (i j i2 j2 : Fin 3) (c : Cell)
    (h : ¬(i2 = i ∧ j2 = j)) : setCell b i j c i2 j2 = b i2 j2 := by
  simp [setCell, h]

theorem setCell_self (b : Board) (i j : Fin 3) (c : Cell) :
    setCell b i j c i j = c := by
  simp [setCell]

/-- All nine coordinates in row-major order: Python's
`for i in range(3): for j in range(3)`. -/
def allCells : List (Fin 3 × Fin 3) :=
  [(0, 0), (0, 1), (0, 2), (1, 0), (1, 1), (1, 2), (2, 0), (2, 1), (2, 2)]

/-- `find_empty_spots`: all empty coordinates in row-major order. -/
def find_empty_spots (b : Board) : List (Fin 3 × Fin 3) :=
  allCells.filter (fun p => b p.1 p.2 = Cell.empty)

/-- Number of empty cells (the `spaces_left` count of `game_status`). -/
def countEmpty (b : Board) : Nat :=
  (find_empty_spots b).length

/-- One line of the win test:
`grid[a] == grid[b] == grid[c] and grid[a] != ' '`. -/
def winLine (a b c : Cell) : Prop :=
  a = b ∧ b = c ∧ a ≠ Cell.empty

instance (a b c : Cell) : Decidable (winLine a b c) := by
  unfold winLine; infer_instance

/-- The winning symbol of a matched line as a `GResult`
(`game_status` returns the cell's own symbol). -/
def cellResult : Cell → GResult
  | Cell.X => GResult.X
  | Cell.O => GResult.O
  | Cell.empty => GResult.draw

/-- `game_status`: rows, then columns, then the main diagonal, then the
anti-diagonal, then the draw test on the number of remaining spaces;
`none` models Python's `None` (game ongoing). -/
def game_status (b : Board) : Option GResult :=
  if winLine (b 0 0) (b 0 1) (b 0 2) then some (cellResult (b 0 0))
  else if winLine (b 1 0) (b 1 1) (b 1 2) then some (cellResult (b 1 0))
  else if winLine (b 2 0) (b 2 1) (b 2 2) then some (cellResult (b 2 0))
  else if winLine (b 0 0) (b 1 0) (b 2 0) then some (cellResult (b 0 0))
  else if winLine (b 0 1) (b 1 1) (b 2 1) then some (cellResult (b 0 1))
  else if winLine (b 0 2) (b 1 2) (b 2 2) then some (cellResult (b 0 2))
  else if winLine (b 0 0) (b 1 1) (b 2 2) then some (cellResult (b 0 0))
  else if winLine (b 0 2) (b 1 1) (b 2 0) then some (cellResult (b 0 2))
  else if countEmpty b = 0 then some GResult.draw
  else none

/-- `score_position`: raw terminal score, +10 for an `'O'` win, -10 for
an `'X'` win, 0 otherwise. -/
def score_position (b : Board) : ℤ :=
  match game_status b with
  | some GResult.O => 10
  | some GResult.X => -10
  | _ => 0

/-- `check_valid_position`: bounds are tested first (so Python never
indexes the grid with an out-of-range or negative subscript), then the
cell is read.  Coordinates are arbitrary integers, as in Python. -/
def check_valid_position (b : Board) (row col : ℤ) : Bool :=
  if row < 0 ∨ 2 < row then false
  else if col < 0 ∨ 2 < col then false
  else if b ⟨row.toNat % 3, Nat.mod_lt _ (by omega)⟩
           ⟨col.toNat % 3, Nat.mod_lt _ (by omega)⟩ ≠ Cell.empty then false
  else true

/-- `place_symbol`: returns the (possibly) updated grid together with
the Python boolean result. -/
def place_symbol (b : Board) (row col : ℤ) (symbol : Cell) : Board × Bool :=
  if check_valid_position b row col then
    (setCell b ⟨row.toNat % 3, Nat.mod_lt _ (by omega)⟩
       ⟨col.toNat % 3, Nat.mod_lt _ (by omega)⟩ symbol, true)
  else
    (b, false)

/-- Extended integers: `float('-inf')`, actual integer scores, `float('inf')`. -/
abbrev EInt := WithBot (WithTop ℤ)

/-- An actual integer score viewed as an extended integer. -/
def iv (n : ℤ) : EInt := ((n : WithTop ℤ) : EInt)

/-! ### The two searches

Each search takes the simulated `board`, the `depth`, and (for
alpha-beta) the `alpha`/`beta` window, and returns its score together
with the number of `self.call_count` increments it performs; alpha-beta
additionally reports (as instrumentation for the statements below)
whether any `break` ever skipped a not-yet-visited sibling. -/

/-- The maximizing loop of `minimax_search`: place `'O'` in each empty
cell in row-major order, recurse, fold with `max` starting from
`float('-inf')`; `cnt` accumulates the counter increments. -/
def mmFoldMax (f : Board → EInt × Nat) (b : Board) :
    List (Fin 3 × Fin 3) → EInt → Nat → EInt × Nat
  | [], best, cnt => (best, cnt)
  | p :: rest, best, cnt =>
    let r := f (setCell b p.1 p.2 Cell.O)
    mmFoldMax f b rest (max best r.1) (cnt + r.2)

/-- The minimizing loop of `minimax_search`: place `'X'`, fold with
`min` starting from `float('inf')`. -/
def mmFoldMin (f : Board → EInt × Nat) (b : Board) :
    List (Fin 3 × Fin 3) → EInt → Nat → EInt × Nat
  | [], best, cnt => (best, cnt)
  | p :: rest, best, cnt =>
    let r := f (setCell b p.1 p.2 Cell.X)
    mmFoldMin f b rest (min best r.1) (cnt + r.2)

/-- `minimax_search` with explicit fuel.  A call first counts itself
(`cnt` starts at 1), then tests the terminal cases, then folds over the
empty cells.  The fuel-exhausted answer `(iv 0, 1)` is never reached
when the fuel is at least `countEmpty`. -/
def minimax_fuel : Nat → Board → Nat → Bool → EInt × Nat
  | 0, board, depth, _ =>
    (match game_status board with
     | some GResult.O => (iv (10 - (depth : ℤ)), 1)
     | some GResult.X => (iv (-10 + (depth : ℤ)), 1)
     | some GResult.draw => (iv 0, 1)
     | none => (iv 0, 1))
  | Nat.succ fuel2, board, depth, maximizing_player =>
    (match game_status board with
     | some GResult.O => (iv (10 - (depth : ℤ)), 1)
     | some GResult.X => (iv (-10 + (depth : ℤ)), 1)
     | some GResult.draw => (iv 0, 1)
     | none =>
       if maximizing_player then
         mmFoldMax (fun b2 => minimax_fuel fuel2 b2 (depth + 1) false)
           board (find_empty_spots board) ⊥ 1
       else
         mmFoldMin (fun b2 => minimax_fuel fuel2 b2 (depth + 1) true)
           board (find_empty_spots board) ⊤ 1)

/-- `minimax_search(board, depth, maximizing_player)`: score and total
counter increment.  Fuel 9 (the number of cells) always suffices. -/
def minimax_search (board : Board) (depth : Nat) (maximizing_player : Bool) :
    EInt × Nat :=
  minimax_fuel 9 board depth maximizing_player

/-- The maximizing loop of `alpha_beta_search`.  After each child:
`max_eval`/`alpha` are updated and, when `beta <= alpha`, the remaining
cells are skipped (Python's two `break`s out of the nested loops).
The `pr` flag records whether a `break` ever skipped a remaining cell,
here or inside any visited child. -/
def abFoldMax (f : Board → EInt → EInt → EInt × Nat × Bool) (b : Board) :
    List (Fin 3 × Fin 3) → EInt → EInt → EInt → Nat → Bool → EInt × Nat × Bool
  | [], best, _, _, cnt, pr => (best, cnt, pr)
  | p :: rest, best, alpha, beta, cnt, pr =>
    let r := f (setCell b p.1 p.2 Cell.O) alpha beta
    let best2 := max best r.1
    let alpha2 := max alpha r.1
    let pr2 := pr || r.2.2
    if beta ≤ alpha2 then
      (best2, cnt + r.2.1, pr2 || !rest.isEmpty)
    else
      abFoldMax f b rest best2 alpha2 beta (cnt + r.2.1) pr2

/-- The minimizing loop of `alpha_beta_search`: symmetric, updating
`min_eval`/`beta`. -/
def abFoldMin (f : Board → EInt → EInt → EInt × Nat × Bool) (b : Board) :
    List (Fin 3 × Fin 3) → EInt → EInt → EInt → Nat → Bool → EInt × Nat × Bool
  | [], best, _, _, cnt, pr => (best, cnt, pr)
  | p :: rest, best, alpha, beta, cnt, pr =>
    let r := f (setCell b p.1 p.2 Cell.X) alpha beta
    let best2 := min best r.1
    let beta2 := min beta r.1
    let pr2 := pr || r.2.2
    if beta2 ≤ alpha then
      (best2, cnt + r.2.1, pr2 || !rest.isEmpty)
    else
      abFoldMin f b rest best2 alpha beta2 (cnt + r.2.1) pr2

/-- `alpha_beta_search` with explicit fuel: score, counter increment,
and the pruning-occurred instrumentation flag. -/
def alpha_beta_fuel : Nat → Board → Nat → EInt → EInt → Bool → EInt × Nat × Bool
  | 0, board, depth, _, _, _ =>
    (match game_status board with
     | some GResult.O => (iv (10 - (depth : ℤ)), 1, false)
     | some GResult.X => (iv (-10 + (depth : ℤ)), 1, false)
     | some GResult.draw => (iv 0, 1, false)
     | none => (iv 0, 1, false))
  | Nat.succ fuel2, board, depth, alpha, beta, maximizing_player =>
    (match game_status board with
     | some GResult.O => (iv (10 - (depth : ℤ)), 1, false)
     | some GResult.X => (iv (-10 + (depth : ℤ)), 1, false)
     | some GResult.draw => (iv 0, 1, false)
     | none =>
       if maximizing_player then
         abFoldMax (fun b2 a2 bt2 => alpha_beta_fuel fuel2 b2 (depth + 1) a2 bt2 false)
           board (find_empty_spots board) ⊥ alpha beta 1 false
       else
         abFoldMin (fun b2 a2 bt2 => alpha_beta_fuel fuel2 b2 (depth + 1) a2 bt2 true)
           board (find_empty_spots board) ⊤ alpha beta 1 false)

/-- `alpha_beta_search(board, depth, alpha, beta, maximizing_player)`. -/
def alpha_beta_search (board : Board) (depth : Nat) (alpha beta : EInt)
    (maximizing_player : Bool) : EInt × Nat × Bool :=
  alpha_beta_fuel 9 board depth alpha beta maximizing_player

/-- `self.chosen_algo`. -/
inductive Algo where
  | minimax
  | alphaBeta
deriving DecidableEq, Repr

/-- Score of one candidate move inside `calculate_best_move`: place
`'O'` on a copy of the grid and run the chosen search at depth 0 with
the opponent to move (alpha-beta starts from the full window). -/
def searchValue (algo : Algo) (b : Board) (p : Fin 3 × Fin 3) : EInt :=
  match algo with
  | Algo.minimax => (minimax_search (setCell b p.1 p.2 Cell.O) 0 false).1
  | Algo.alphaBeta => (alpha_beta_search (setCell b p.1 p.2 Cell.O) 0 ⊥ ⊤ false).1

/-- The selection loop of `calculate_best_move`: keep the best position
and value, overwriting only on a strictly greater value. -/
def bestFold (algo : Algo) (b : Board) :
    List (Fin 3 × Fin 3) → Option (Fin 3 × Fin 3) → EInt →
      Option (Fin 3 × Fin 3) × EInt
  | [], bp, bv => (bp, bv)
  | p :: rest, bp, bv =>
    let v := searchValue algo b p
    if bv < v then bestFold algo b rest (some p) v
    else bestFold algo b rest bp bv

/-- `calculate_best_move` together with the final `best_value` it
tracked (`best_position = None`, `best_value = float('-inf')` at start). -/
def calc_best (algo : Algo) (b : Board) : Option (Fin 3 × Fin 3) × EInt :=
  bestFold algo b (find_empty_spots b) none ⊥

/-- `calculate_best_move`: the chosen position only. -/
def calculate_best_move (algo : Algo) (b : Board) : Option (Fin 3 × Fin 3) :=
  (calc_best algo b).1

/-! ### Basic facts about the board bookkeeping -/

theorem mem_allCells (p : Fin 3 × Fin 3) : p ∈ allCells := by
  revert p; decide

theorem nodup_allCells : allCells.Nodup := by decide

theorem mem_find_empty_spots (b : Board) (p : Fin 3 × Fin 3) :
    p ∈ find_empty_spots b ↔ b p.1 p.2 = Cell.empty := by
  simp [find_empty_spots, List.mem_filter, mem_allCells]

theorem countEmpty_le_nine (b : Board) : countEmpty b ≤ 9 := by
  have h := List.length_filter_le (fun p : Fin 3 × Fin 3 => decide (b p.1 p.2 = Cell.empty)) allCells
  simpa [countEmpty, find_empty_spots] using h

/-- If `game_status` reports an ongoing game, some cell is still empty. -/
theorem game_status_none_countEmpty (b : Board) (h : game_status b = none) :
    countEmpty b ≠ 0 := by
  unfold game_status at h
  split_ifs at h
  simp_all

theorem countEmpty_zero_game_status (b : Board) (h : countEmpty b = 0) :
    game_status b ≠ none := by
  intro hn
  exact game_status_none_countEmpty b hn h

theorem find_empty_spots_ne_nil (b : Board) (h : game_status b = none) :
    find_empty_spots b ≠ [] := by
  intro hnil
  exact game_status_none_countEmpty b h (by simp [countEmpty, hnil])

/-- Flipping one list element from satisfying `p` to failing `q` drops
the filter length by exactly one. -/
theorem filter_length_flip {α : Type} (l : List α) (p q : α → Bool) (x : α)
    (hl : l.Nodup) (hx : x ∈ l) (hpx : p x = true) (hqx : q x = false)
    (hoth : ∀ y ∈ l, y ≠ x → q y = p y) :
    (l.filter q).length + 1 = (l.filter p).length := by
  induction l with
  | nil => cases hx
  | cons a t ih =>
    have hnd := List.nodup_cons.mp hl
    by_cases hax : a = x
    · subst hax
      have hxt : a ∉ t := hnd.1
      have hcongr : t.filter q = t.filter p := by
        apply List.filter_congr
        intro y hy
        exact hoth y (List.mem_cons_of_mem a hy) (fun he => hxt (he ▸ hy))
      simp [List.filter_cons, hpx, hqx, hcongr]
    · have hxt : x ∈ t := by
        rcases List.mem_cons.mp hx with h1 | h1
        · exact absurd h1.symm hax
        · exact h1
      have hqa : q a = p a := hoth a (List.mem_cons_self a t) hax
      have iht := ih hnd.2 hxt (fun y hy hyx => hoth y (List.mem_cons_of_mem a hy) hyx)
      by_cases hpa : p a = true
      · rw [List.filter_cons_of_pos hpa, List.filter_cons_of_pos (hqa.trans hpa)]
        simpa using iht
      · have hpa2 : p a = false := by
          cases hval : p a
          · rfl
          · exact absurd hval hpa
        rw [List.filter_cons_of_neg (by simp [hqa, hpa2]),
          List.filter_cons_of_neg (by simp [hpa2])]
        exact iht

/-- Filling an empty cell removes exactly one entry from the empty list. -/
theorem countEmpty_setCell (b : Board) (i j : Fin 3) (c : Cell)
    (hb : b i j = Cell.empty) (hc : c ≠ Cell.empty) :
    countEmpty (setCell b i j c) + 1 = countEmpty b := by
  unfold countEmpty find_empty_spots
  apply filter_length_flip allCells _ _ ((i, j) : Fin 3 × Fin 3) nodup_allCells
    (mem_allCells _)
  · simpa using hb
  · simp [setCell_self, hc]
  · intro y _ hy
    have hne : ¬(y.1 = i ∧ y.2 = j) := by
      intro hcon
      exact hy (Prod.ext hcon.1 hcon.2)
    simp [setCell_ne b i j y.1 y.2 c hne]

/-! ### Extended-integer facts -/

theorem bot_lt_iv (n : ℤ) : (⊥ : EInt) < iv n :=
  WithBot.bot_lt_coe _

theorem iv_lt_top (n : ℤ) : iv n < (⊤ : EInt) := by
  have h : ((n : WithTop ℤ) : EInt) < ((⊤ : WithTop ℤ) : EInt) :=
    WithBot.coe_lt_coe.mpr (WithTop.coe_lt_top n)
  exact h

theorem iv_le_iv {a b : ℤ} (h : a ≤ b) : iv a ≤ iv b :=
  WithBot.coe_le_coe.mpr (WithTop.coe_le_coe.mpr h)

theorem max_iv (a b : ℤ) : max (iv a) (iv b) = iv (max a b) := by
  rcases le_total a b with h | h
  · rw [max_eq_right h, max_eq_right (iv_le_iv h)]
  · rw [max_eq_left h, max_eq_left (iv_le_iv h)]

theorem min_iv (a b : ℤ) : min (iv a) (iv b) = iv (min a b) := by
  rcases le_total a b with h | h
  · rw [min_eq_left h, min_eq_left (iv_le_iv h)]
  · rw [min_eq_right h, min_eq_right (iv_le_iv h)]

/-! ### Folding `max` / `min` over a list of scored items -/

/-- `foldlMax h a l`: the running maximum the Python `for` loops build. -/
def foldlMax {α : Type} (h : α → EInt) (a : EInt) (l : List α) : EInt :=
  l.foldl (fun acc p => max acc (h p)) a

/-- `foldlMin h a l`: the running minimum. -/
def foldlMin {α : Type} (h : α → EInt) (a : EInt) (l : List α) : EInt :=
  l.foldl (fun acc p => min acc (h p)) a

theorem foldlMax_nil {α : Type} (h : α → EInt) (a : EInt) :
    foldlMax h a [] = a := rfl

theorem foldlMax_cons {α : Type} (h : α → EInt) (a : EInt) (p : α) (l : List α) :
    foldlMax h a (p :: l) = foldlMax h (max a (h p)) l := rfl

theorem foldlMin_nil {α : Type} (h : α → EInt) (a : EInt) :
    foldlMin h a [] = a := rfl

theorem foldlMin_cons {α : Type} (h : α → EInt) (a : EInt) (p : α) (l : List α) :
    foldlMin h a (p :: l) = foldlMin h (min a (h p)) l := rfl

theorem foldlMax_shift {α : Type} (h : α → EInt) (l : List α) :
    ∀ a : EInt, foldlMax h a l = max a (foldlMax h ⊥ l) := by
  induction l with
  | nil => intro a; simp [foldlMax_nil, max_eq_left bot_le]
  | cons p t ih =>
    intro a
    rw [foldlMax_cons, ih, foldlMax_cons, ih (max ⊥ (h p)),
      max_eq_right (bot_le : (⊥ : EInt) ≤ h p), max_assoc]

theorem foldlMin_shift {α : Type} (h : α → EInt) (l : List α) :
    ∀ a : EInt, foldlMin h a l = min a (foldlMin h ⊤ l) := by
  induction l with
  | nil => intro a; simp [foldlMin_nil, min_eq_left le_top]
  | cons p t ih =>
    intro a
    rw [foldlMin_cons, ih, foldlMin_cons, ih (min ⊤ (h p)),
      min_eq_right (le_top : h p ≤ (⊤ : EInt)), min_assoc]

theorem le_foldlMax_init {α : Type} (h : α → EInt) (l : List α) (a : EInt) :
    a ≤ foldlMax h a l := by
  rw [foldlMax_shift]; exact le_max_left _ _

theorem foldlMin_le_init {α : Type} (h : α → EInt) (l : List α) (a : EInt) :
    foldlMin h a l ≤ a := by
  rw [foldlMin_shift]; exact min_le_left _ _

theorem mem_le_foldlMax {α : Type} (h : α → EInt) (l : List α) (a : EInt)
    (p : α) (hp : p ∈ l) : h p ≤ foldlMax h a l := by
  induction l generalizing a with
  | nil => cases hp
  | cons q t ih =>
    rw [foldlMax_cons]
    rcases List.mem_cons.mp hp with h1 | h1
    · subst h1
      exact le_trans (le_max_right a (h p)) (le_foldlMax_init _ _ _)
    · exact ih _ h1

theorem foldlMin_le_mem {α : Type} (h : α → EInt) (l : List α) (a : EInt)
    (p : α) (hp : p ∈ l) : foldlMin h a l ≤ h p := by
  induction l generalizing a with
  | nil => cases hp
  | cons q t ih =>
    rw [foldlMin_cons]
    rcases List.mem_cons.mp hp with h1 | h1
    · subst h1
      exact le_trans (foldlMin_le_init _ _ _) (min_le_right a (h p))
    · exact ih _ h1

theorem foldlMax_eq_init_or_mem {α : Type} (h : α → EInt) (l : List α) :
    ∀ a : EInt, foldlMax h a l = a ∨ ∃ p ∈ l, foldlMax h a l = h p := by
  induction l with
  | nil => intro a; exact Or.inl rfl
  | cons q t ih =>
    intro a
    rw [foldlMax_cons]
    rcases ih (max a (h q)) with h1 | ⟨p, hp, h2⟩
    · rcases max_choice a (h q) with h2 | h2
      · exact Or.inl (h1.trans h2)
      · exact Or.inr ⟨q, List.mem_cons_self q t, h1.trans h2⟩
    · exact Or.inr ⟨p, List.mem_cons_of_mem q hp, h2⟩

theorem foldlMin_eq_init_or_mem {α : Type} (h : α → EInt) (l : List α) :
    ∀ a : EInt, foldlMin h a l = a ∨ ∃ p ∈ l, foldlMin h a l = h p := by
  induction l with
  | nil => intro a; exact Or.inl rfl
  | cons q t ih =>
    intro a
    rw [foldlMin_cons]
    rcases ih (min a (h q)) with h1 | ⟨p, hp, h2⟩
    · rcases min_choice a (h q) with h2 | h2
      · exact Or.inl (h1.trans h2)
      · exact Or.inr ⟨q, List.mem_cons_self q t, h1.trans h2⟩
    · exact Or.inr ⟨p, List.mem_cons_of_mem q hp, h2⟩

theorem foldlMax_congr {α : Type} (h1 h2 : α → EInt) (l : List α)
    (hh : ∀ p ∈ l, h1 p = h2 p) : ∀ a : EInt, foldlMax h1 a l = foldlMax h2 a l := by
  induction l with
  | nil => intro a; rfl
  | cons q t ih =>
    intro a
    rw [foldlMax_cons, foldlMax_cons, hh q (List.mem_cons_self q t),
      ih (fun p hp => hh p (List.mem_cons_of_mem q hp))]

theorem foldlMin_congr {α : Type} (h1 h2 : α → EInt) (l : List α)
    (hh : ∀ p ∈ l, h1 p = h2 p) : ∀ a : EInt, foldlMin h1 a l = foldlMin h2 a l := by
  induction l with
  | nil => intro a; rfl
  | cons q t ih =>
    intro a
    rw [foldlMin_cons, foldlMin_cons, hh q (List.mem_cons_self q t),
      ih (fun p hp => hh p (List.mem_cons_of_mem q hp))]

/-- A nonempty maximum of integer scores is an integer score. -/
theorem foldlMax_iv_of_mem {α : Type} (h : α → EInt) (l : List α)
    (hint : ∀ p ∈ l, ∃ n : ℤ, h p = iv n) (hne : l ≠ []) :
    ∃ n : ℤ, foldlMax h ⊥ l = iv n := by
  rcases foldlMax_eq_init_or_mem h l ⊥ with h1 | ⟨p, hp, h2⟩
  · obtain ⟨q, hq⟩ := List.exists_mem_of_ne_nil l hne
    obtain ⟨n, hn⟩ := hint q hq
    have := mem_le_foldlMax h l ⊥ q hq
    rw [h1, hn] at this
    exact absurd this (not_le.mpr (bot_lt_iv n))
  · obtain ⟨n, hn⟩ := hint p hp
    exact ⟨n, h2.trans hn⟩

theorem foldlMin_iv_of_mem {α : Type} (h : α → EInt) (l : List α)
    (hint : ∀ p ∈ l, ∃ n : ℤ, h p = iv n) (hne : l ≠ []) :
    ∃ n : ℤ, foldlMin h ⊤ l = iv n := by
  rcases foldlMin_eq_init_or_mem h l ⊤ with h1 | ⟨p, hp, h2⟩
  · obtain ⟨q, hq⟩ := List.exists_mem_of_ne_nil l hne
    obtain ⟨n, hn⟩ := hint q hq
    have := foldlMin_le_mem h l ⊤ q hq
    rw [h1, hn] at this
    exact absurd this (not_le.mpr (iv_lt_top n))
  · obtain ⟨n, hn⟩ := hint p hp
    exact ⟨n, h2.trans hn⟩

/-! ### Decomposing the minimax loops -/

theorem mmFoldMax_fst (f : Board → EInt × Nat) (b : Board) :
    ∀ (l : List (Fin 3 × Fin 3)) (best : EInt) (cnt : Nat),
      (mmFoldMax f b l best cnt).1 =
        foldlMax (fun p => (f (setCell b p.1 p.2 Cell.O)).1) best l := by
  intro l
  induction l with
  | nil => intro best cnt; rfl
  | cons p t ih => intro best cnt; rw [mmFoldMax, foldlMax_cons]; exact ih _ _

theorem mmFoldMin_fst (f : Board → EInt × Nat) (b : Board) :
    ∀ (l : List (Fin 3 × Fin 3)) (best : EInt) (cnt : Nat),
      (mmFoldMin f b l best cnt).1 =
        foldlMin (fun p => (f (setCell b p.1 p.2 Cell.X)).1) best l := by
  intro l
  induction l with
  | nil => intro best cnt; rfl
  | cons p t ih => intro best cnt; rw [mmFoldMin, foldlMin_cons]; exact ih _ _

theorem mmFoldMax_snd (f : Board → EInt × Nat) (b : Board) :
    ∀ (l : List (Fin 3 × Fin 3)) (best : EInt) (cnt : Nat),
      (mmFoldMax f b l best cnt).2 =
        cnt + (l.map (fun p => (f (setCell b p.1 p.2 Cell.O)).2)).sum := by
  intro l
  induction l with
  | nil => intro best cnt; simp [mmFoldMax]
  | cons p t ih =>
    intro best cnt
    rw [mmFoldMax]
    rw [ih]
    simp [List.sum_cons]
    omega

theorem mmFoldMin_snd (f : Board → EInt × Nat) (b : Board) :
    ∀ (l : List (Fin 3 × Fin 3)) (best : EInt) (cnt : Nat),
      (mmFoldMin f b l best cnt).2 =
        cnt + (l.map (fun p => (f (setCell b p.1 p.2 Cell.X)).2)).sum := by
  intro l
  induction l with
  | nil => intro best cnt; simp [mmFoldMin]
  | cons p t ih =>
    intro best cnt
    rw [mmFoldMin]
    rw [ih]
    simp [List.sum_cons]
    omega

theorem mmFoldMax_congr (f1 f2 : Board → EInt × Nat) (b : Board)
    (l : List (Fin 3 × Fin 3))
    (hf : ∀ p ∈ l, f1 (setCell b p.1 p.2 Cell.O) = f2 (setCell b p.1 p.2 Cell.O)) :
    ∀ (best : EInt) (cnt : Nat),
      mmFoldMax f1 b l best cnt = mmFoldMax f2 b l best cnt := by
  induction l with
  | nil => intro best cnt; rfl
  | cons p t ih =>
    intro best cnt
    rw [mmFoldMax, mmFoldMax, hf p (List.mem_cons_self p t)]
    exact ih (fun q hq => hf q (List.mem_cons_of_mem p hq)) _ _

theorem mmFoldMin_congr (f1 f2 : Board → EInt × Nat) (b : Board)
    (l : List (Fin 3 × Fin 3))
    (hf : ∀ p ∈ l, f1 (setCell b p.1 p.2 Cell.X) = f2 (setCell b p.1 p.2 Cell.X)) :
    ∀ (best : EInt) (cnt : Nat),
      mmFoldMin f1 b l best cnt = mmFoldMin f2 b l best cnt := by
  induction l with
  | nil => intro best cnt; rfl
  | cons p t ih =>
    intro best cnt
    rw [mmFoldMin, mmFoldMin, hf p (List.mem_cons_self p t)]
    exact ih (fun q hq => hf q (List.mem_cons_of_mem p hq)) _ _

/-! ### Minimax: integer scores, positive counts, fuel irrelevance -/


theorem minimax_int : ∀ (fuel : Nat) (b : Board) (depth : Nat) (m : Bool),
    ∃ n : ℤ, (minimax_fuel fuel b depth m).1 = iv n := by
  intro fuel
  induction fuel with
  | zero =>
    intro b depth m
    cases hst : game_status b with
    | none => exact ⟨0, by simp only [minimax_fuel, hst]⟩
    | some g =>
      cases g with
      | X => exact ⟨-10 + (depth : ℤ), by simp only [minimax_fuel, hst]⟩
      | O => exact ⟨10 - (depth : ℤ), by simp only [minimax_fuel, hst]⟩
      | draw => exact ⟨0, by simp only [minimax_fuel, hst]⟩
  | succ fuel ih =>
    intro b depth m
    cases hst : game_status b with
    | some g =>
      cases g with
      | X => exact ⟨-10 + (depth : ℤ), by simp only [minimax_fuel, hst]⟩
      | O => exact ⟨10 - (depth : ℤ), by simp only [minimax_fuel, hst]⟩
      | draw => exact ⟨0, by simp only [minimax_fuel, hst]⟩
    | none =>
      have hne := find_empty_spots_ne_nil b hst
      cases m with
      | true =>
        have hu : minimax_fuel (fuel + 1) b depth true =
            mmFoldMax (fun b2 => minimax_fuel fuel b2 (depth + 1) false)
              b (find_empty_spots b) ⊥ 1 := by
          simp only [minimax_fuel, hst, if_pos]
        rw [hu, mmFoldMax_fst]
        exact foldlMax_iv_of_mem _ _ (fun p _ => ih _ _ _) hne
      | false =>
        have hu : minimax_fuel (fuel + 1) b depth false =
            mmFoldMin (fun b2 => minimax_fuel fuel b2 (depth + 1) true)
              b (find_empty_spots b) ⊤ 1 := by
          simp only [minimax_fuel, hst, Bool.false_eq_true, if_false]
        rw [hu, mmFoldMin_fst]
        exact foldlMin_iv_of_mem _ _ (fun p _ => ih _ _ _) hne


theorem minimax_cnt_pos : ∀ (fuel : Nat) (b : Board) (depth : Nat) (m : Bool),
    1 ≤ (minimax_fuel fuel b depth m).2 := by
  intro fuel
  cases fuel with
  | zero =>
    intro b depth m
    cases hst : game_status b with
    | none => simp [minimax_fuel, hst]
    | some g =>
      cases g with
      | X => simp [minimax_fuel, hst]
      | O => simp [minimax_fuel, hst]
      | draw => simp [minimax_fuel, hst]
  | succ fuel =>
    intro b depth m
    cases hst : game_status b with
    | some g =>
      cases g with
      | X => simp [minimax_fuel, hst]
      | O => simp [minimax_fuel, hst]
      | draw => simp [minimax_fuel, hst]
    | none =>
      cases m with
      | true =>
        have hu : minimax_fuel (fuel + 1) b depth true =
            mmFoldMax (fun b2 => minimax_fuel fuel b2 (depth + 1) false)
              b (find_empty_spots b) ⊥ 1 := by
          simp only [minimax_fuel, hst, if_pos]
        rw [hu, mmFoldMax_snd]
        omega
      | false =>
        have hu : minimax_fuel (fuel + 1) b depth false =
            mmFoldMin (fun b2 => minimax_fuel fuel b2 (depth + 1) true)
              b (find_empty_spots b) ⊤ 1 := by
          simp only [minimax_fuel, hst, Bool.false_eq_true, if_false]
        rw [hu, mmFoldMin_snd]
        omega

theorem minimax_fuel_eq : ∀ (fuel fuel2 : Nat) (b : Board) (depth : Nat) (m : Bool),
    countEmpty b ≤ fuel → countEmpty b ≤ fuel2 →
    minimax_fuel fuel b depth m = minimax_fuel fuel2 b depth m := by
  intro fuel
  induction fuel with
  | zero =>
    intro fuel2 b depth m h1 h2
    have h0 : countEmpty b = 0 := Nat.le_zero.mp h1
    cases hst : game_status b with
    | none => exact absurd hst (countEmpty_zero_game_status b h0)
    | some g =>
      cases fuel2 with
      | zero => rfl
      | succ f2 =>
        cases g with
        | X => simp only [minimax_fuel, hst]
        | O => simp only [minimax_fuel, hst]
        | draw => simp only [minimax_fuel, hst]
  | succ fuel ih =>
    intro fuel2 b depth m h1 h2
    cases hst : game_status b with
    | some g =>
      cases fuel2 with
      | zero =>
        cases g with
        | X => simp only [minimax_fuel, hst]
        | O => simp only [minimax_fuel, hst]
        | draw => simp only [minimax_fuel, hst]
      | succ f2 =>
        cases g with
        | X => simp only [minimax_fuel, hst]
        | O => simp only [minimax_fuel, hst]
        | draw => simp only [minimax_fuel, hst]
    | none =>
      have hne0 : countEmpty b ≠ 0 := game_status_none_countEmpty b hst
      cases fuel2 with
      | zero => exact absurd (Nat.le_zero.mp h2) hne0
      | succ f2 =>
        cases m with
        | true =>
          have hu1 : minimax_fuel (fuel + 1) b depth true =
              mmFoldMax (fun b2 => minimax_fuel fuel b2 (depth + 1) false)
                b (find_empty_spots b) ⊥ 1 := by
            simp only [minimax_fuel, hst, if_pos]
          have hu2 : minimax_fuel (f2 + 1) b depth true =
              mmFoldMax (fun b2 => minimax_fuel f2 b2 (depth + 1) false)
                b (find_empty_spots b) ⊥ 1 := by
            simp only [minimax_fuel, hst, if_pos]
          rw [hu1, hu2]
          apply mmFoldMax_congr
          intro p hp
          have hemp : b p.1 p.2 = Cell.empty := (mem_find_empty_spots b p).mp hp
          have hce := countEmpty_setCell b p.1 p.2 Cell.O hemp (by decide)
          exact ih f2 _ (depth + 1) false (by omega) (by omega)
        | false =>
          have hu1 : minimax_fuel (fuel + 1) b depth false =
              mmFoldMin (fun b2 => minimax_fuel fuel b2 (depth + 1) true)
                b (find_empty_spots b) ⊤ 1 := by
            simp only [minimax_fuel, hst, Bool.false_eq_true, if_false]
          have hu2 : minimax_fuel (f2 + 1) b depth false =
              mmFoldMin (fun b2 => minimax_fuel f2 b2 (depth + 1) true)
                b (find_empty_spots b) ⊤ 1 := by
            simp only [minimax_fuel, hst, Bool.false_eq_true, if_false]
          rw [hu1, hu2]
          apply mmFoldMin_congr
          intro p hp
          have hemp : b p.1 p.2 = Cell.empty := (mem_find_empty_spots b p).mp hp
          have hce := countEmpty_setCell b p.1 p.2 Cell.X hemp (by decide)
          exact ih f2 _ (depth + 1) true (by omega) (by omega)

/-! ### Alpha-beta: how a windowed score approximates the exact one -/

/-- Knuth-Moore style fail-soft contract: a score `r` computed inside
the window `(alpha, beta)` determines the exact score `v` when it lands
strictly inside the window, and bounds it when it fails low or high. -/
def approxInv (r v alpha beta : EInt) : Prop :=
  (r ≤ alpha → v ≤ r) ∧ (beta ≤ r → r ≤ v) ∧ (alpha < r → r < beta → r = v)

theorem approxInv_of_eq {r v alpha beta : EInt} (h : r = v) :
    approxInv r v alpha beta :=
  ⟨fun _ => le_of_eq h.symm, fun _ => le_of_eq h, fun _ _ => h⟩

theorem beta_le_of_max {alpha beta s : EInt} (hab : alpha < beta)
    (h : beta ≤ max alpha s) : beta ≤ s := by
  rcases le_or_lt s alpha with hs | hs
  · rw [max_eq_left hs] at h
    exact absurd h (not_le.mpr hab)
  · rwa [max_eq_right (le_of_lt hs)] at h

theorem le_alpha_of_min {alpha beta s : EInt} (hab : alpha < beta)
    (h : min beta s ≤ alpha) : s ≤ alpha := by
  rcases le_or_lt beta s with hs | hs
  · rw [min_eq_left hs] at h
    exact absurd h (not_le.mpr hab)
  · rwa [min_eq_right (le_of_lt hs)] at h

theorem le_abFoldMax (fab : Board → EInt → EInt → EInt × Nat × Bool) (b : Board) :
    ∀ (l : List (Fin 3 × Fin 3)) (best alpha beta : EInt) (cnt : Nat) (pr : Bool),
      best ≤ (abFoldMax fab b l best alpha beta cnt pr).1 := by
  intro l
  induction l with
  | nil => intro best alpha beta cnt pr; exact le_refl best
  | cons p rest ih =>
    intro best alpha beta cnt pr
    simp only [abFoldMax]
    split
    · exact le_max_left _ _
    · exact le_trans (le_max_left _ _) (ih _ _ _ _ _)

theorem abFoldMin_le (fab : Board → EInt → EInt → EInt × Nat × Bool) (b : Board) :
    ∀ (l : List (Fin 3 × Fin 3)) (best alpha beta : EInt) (cnt : Nat) (pr : Bool),
      (abFoldMin fab b l best alpha beta cnt pr).1 ≤ best := by
  intro l
  induction l with
  | nil => intro best alpha beta cnt pr; exact le_refl best
  | cons p rest ih =>
    intro best alpha beta cnt pr
    simp only [abFoldMin]
    split
    · exact min_le_left _ _
    · exact le_trans (ih _ _ _ _ _) (min_le_left _ _)

theorem abFoldMax_cons_pos (fab : Board → EInt → EInt → EInt × Nat × Bool)
    (b : Board) (p : Fin 3 × Fin 3) (rest : List (Fin 3 × Fin 3))
    (best alpha beta : EInt) (cnt : Nat) (pr : Bool)
    (h : beta ≤ max alpha (fab (setCell b p.1 p.2 Cell.O) alpha beta).1) :
    abFoldMax fab b (p :: rest) best alpha beta cnt pr =
      (max best (fab (setCell b p.1 p.2 Cell.O) alpha beta).1,
       cnt + (fab (setCell b p.1 p.2 Cell.O) alpha beta).2.1,
       (pr || (fab (setCell b p.1 p.2 Cell.O) alpha beta).2.2) || !rest.isEmpty) := by
  simp only [abFoldMax]
  rw [if_pos h]

theorem abFoldMax_cons_neg (fab : Board → EInt → EInt → EInt × Nat × Bool)
    (b : Board) (p : Fin 3 × Fin 3) (rest : List (Fin 3 × Fin 3))
    (best alpha beta : EInt) (cnt : Nat) (pr : Bool)
    (h : ¬ beta ≤ max alpha (fab (setCell b p.1 p.2 Cell.O) alpha beta).1) :
    abFoldMax fab b (p :: rest) best alpha beta cnt pr =
      abFoldMax fab b rest
        (max best (fab (setCell b p.1 p.2 Cell.O) alpha beta).1)
        (max alpha (fab (setCell b p.1 p.2 Cell.O) alpha beta).1) beta
        (cnt + (fab (setCell b p.1 p.2 Cell.O) alpha beta).2.1)
        (pr || (fab (setCell b p.1 p.2 Cell.O) alpha beta).2.2) := by
  simp only [abFoldMax]
  rw [if_neg h]

theorem abFoldMin_cons_pos (fab : Board → EInt → EInt → EInt × Nat × Bool)
    (b : Board) (p : Fin 3 × Fin 3) (rest : List (Fin 3 × Fin 3))
    (best alpha beta : EInt) (cnt : Nat) (pr : Bool)
    (h : min beta (fab (setCell b p.1 p.2 Cell.X) alpha beta).1 ≤ alpha) :
    abFoldMin fab b (p :: rest) best alpha beta cnt pr =
      (min best (fab (setCell b p.1 p.2 Cell.X) alpha beta).1,
       cnt + (fab (setCell b p.1 p.2 Cell.X) alpha beta).2.1,
       (pr || (fab (setCell b p.1 p.2 Cell.X) alpha beta).2.2) || !rest.isEmpty) := by
  simp only [abFoldMin]
  rw [if_pos h]

theorem abFoldMin_cons_neg (fab : Board → EInt → EInt → EInt × Nat × Bool)
    (b : Board) (p : Fin 3 × Fin 3) (rest : List (Fin 3 × Fin 3))
    (best alpha beta : EInt) (cnt : Nat) (pr : Bool)
    (h : ¬ min beta (fab (setCell b p.1 p.2 Cell.X) alpha beta).1 ≤ alpha) :
    abFoldMin fab b (p :: rest) best alpha beta cnt pr =
      abFoldMin fab b rest
        (min best (fab (setCell b p.1 p.2 Cell.X) alpha beta).1)
        alpha (min beta (fab (setCell b p.1 p.2 Cell.X) alpha beta).1)
        (cnt + (fab (setCell b p.1 p.2 Cell.X) alpha beta).2.1)
        (pr || (fab (setCell b p.1 p.2 Cell.X) alpha beta).2.2) := by
  simp only [abFoldMin]
  rw [if_neg h]

theorem abFoldMax_inv
    (fab : Board → EInt → EInt → EInt × Nat × Bool)
    (fmm : Board → EInt × Nat) (b : Board) :
    ∀ (moves : List (Fin 3 × Fin 3)) (best alpha beta : EInt) (cnt : Nat) (pr : Bool),
      (∀ p ∈ moves, ∀ a bt : EInt, a < bt →
        approxInv (fab (setCell b p.1 p.2 Cell.O) a bt).1
          (fmm (setCell b p.1 p.2 Cell.O)).1 a bt) →
      best ≤ alpha → alpha < beta →
      approxInv (abFoldMax fab b moves best alpha beta cnt pr).1
        (foldlMax (fun q => (fmm (setCell b q.1 q.2 Cell.O)).1) best moves)
        alpha beta := by
  intro moves
  induction moves with
  | nil =>
    intro best alpha beta cnt pr hch hba hab
    exact approxInv_of_eq rfl
  | cons p rest ih =>
    intro best alpha beta cnt pr hch hba hab
    obtain ⟨hc1, hc2, hc3⟩ := hch p (List.mem_cons_self p rest) alpha beta hab
    have hvm : (fmm (setCell b p.1 p.2 Cell.O)).1 ≤
        foldlMax (fun q => (fmm (setCell b q.1 q.2 Cell.O)).1) best (p :: rest) :=
      mem_le_foldlMax (fun q => (fmm (setCell b q.1 q.2 Cell.O)).1)
        (p :: rest) best p (List.mem_cons_self p rest)
    by_cases hbr : beta ≤ max alpha (fab (setCell b p.1 p.2 Cell.O) alpha beta).1
    · -- the break is taken after the first child
      rw [abFoldMax_cons_pos fab b p rest best alpha beta cnt pr hbr]
      have hbs : beta ≤ (fab (setCell b p.1 p.2 Cell.O) alpha beta).1 :=
        beta_le_of_max hab hbr
      have hsvm := hc2 hbs
      have hr : max best (fab (setCell b p.1 p.2 Cell.O) alpha beta).1 =
          (fab (setCell b p.1 p.2 Cell.O) alpha beta).1 :=
        max_eq_right (le_trans hba (le_of_lt (lt_of_lt_of_le hab hbs)))
      refine ⟨?_, ?_, ?_⟩
      · intro h
        dsimp only at h
        rw [hr] at h
        exact absurd (lt_of_lt_of_le hab (le_trans hbs h)) (lt_irrefl alpha)
      · intro h
        dsimp only
        rw [hr]
        exact le_trans hsvm hvm
      · intro h1 h2
        dsimp only at h2
        rw [hr] at h2
        exact absurd (lt_of_le_of_lt hbs h2) (lt_irrefl beta)
    · -- the loop continues with the widened running maximum
      rw [abFoldMax_cons_neg fab b p rest best alpha beta cnt pr hbr]
      have hab2 : max alpha (fab (setCell b p.1 p.2 Cell.O) alpha beta).1 < beta :=
        not_le.mp hbr
      have hba2 : max best (fab (setCell b p.1 p.2 Cell.O) alpha beta).1 ≤
          max alpha (fab (setCell b p.1 p.2 Cell.O) alpha beta).1 :=
        max_le_max hba (le_refl _)
      have hch2 : ∀ q ∈ rest, ∀ a bt : EInt, a < bt →
          approxInv (fab (setCell b q.1 q.2 Cell.O) a bt).1
            (fmm (setCell b q.1 q.2 Cell.O)).1 a bt :=
        fun q hq => hch q (List.mem_cons_of_mem p hq)
      have ihc := ih (max best (fab (setCell b p.1 p.2 Cell.O) alpha beta).1)
        (max alpha (fab (setCell b p.1 p.2 Cell.O) alpha beta).1) beta
        (cnt + (fab (setCell b p.1 p.2 Cell.O) alpha beta).2.1)
        (pr || (fab (setCell b p.1 p.2 Cell.O) alpha beta).2.2)
        hch2 hba2 hab2
      obtain ⟨ihc1, ihc2, ihc3⟩ := ihc
      have hlow := le_abFoldMax fab b rest
        (max best (fab (setCell b p.1 p.2 Cell.O) alpha beta).1)
        (max alpha (fab (setCell b p.1 p.2 Cell.O) alpha beta).1) beta
        (cnt + (fab (setCell b p.1 p.2 Cell.O) alpha beta).2.1)
        (pr || (fab (setCell b p.1 p.2 Cell.O) alpha beta).2.2)
      -- abbreviate the head child's two scores and the loop value
      set s := (fab (setCell b p.1 p.2 Cell.O) alpha beta).1 with hs
      set vm := (fmm (setCell b p.1 p.2 Cell.O)).1 with hvmdef
      set r := (abFoldMax fab b rest (max best s) (max alpha s) beta
        (cnt + (fab (setCell b p.1 p.2 Cell.O) alpha beta).2.1)
        (pr || (fab (setCell b p.1 p.2 Cell.O) alpha beta).2.2)).1 with hrdef
      set L := foldlMax (fun q => (fmm (setCell b q.1 q.2 Cell.O)).1) ⊥ rest with hLdef
      have hv : foldlMax (fun q => (fmm (setCell b q.1 q.2 Cell.O)).1) best (p :: rest) =
          max (max best vm) L := by
        rw [foldlMax_cons, foldlMax_shift]
      have hv2 : foldlMax (fun q => (fmm (setCell b q.1 q.2 Cell.O)).1) (max best s) rest =
          max (max best s) L := by
        rw [foldlMax_shift]
      rw [hv] at hvm ⊢
      rw [hv2] at ihc1 ihc2 ihc3
      rcases le_or_lt s alpha with hsa | hsa
      · -- the head child failed low: vm ≤ s ≤ alpha
        have hvms : vm ≤ s := hc1 hsa
        have hmax_a : max alpha s = alpha := max_eq_left hsa
        rw [hmax_a] at ihc1 ihc3
        have hbsle : max best s ≤ alpha := max_le hba hsa
        have hmono : max (max best vm) L ≤ max (max best s) L :=
          max_le_max (max_le_max (le_refl best) hvms) (le_refl L)
        refine ⟨?_, ?_, ?_⟩
        · intro h
          exact le_trans hmono (ihc1 h)
        · intro h
          have h1 := ihc2 h
          have h2 : max best s < r := lt_of_le_of_lt hbsle (lt_of_lt_of_le hab h)
          rcases le_max_iff.mp h1 with h3 | h3
          · exact absurd (lt_of_le_of_lt h3 h2) (lt_irrefl r)
          · exact le_trans h3 (le_max_right _ _)
        · intro h1 h2
          have heq := ihc3 h1 h2
          have h3 : max best s < r := lt_of_le_of_lt hbsle h1
          rcases max_choice (max best s) L with h4 | h4
          · rw [h4] at heq
            exact absurd (lt_of_le_of_lt (le_of_eq heq) h3) (lt_irrefl r)
          · rw [h4] at heq
            rw [heq]
            have h5 : max best vm ≤ L := by
              rw [← heq]
              exact le_trans (max_le hba (le_trans hvms hsa)) (le_of_lt h1)
            exact (max_eq_right h5).symm
      · -- the head child landed in the window: its score is exact
        have hsb : s < beta := lt_of_le_of_lt (le_max_right alpha s) hab2
        have hsvm : s = vm := hc3 hsa hsb
        have hmax_a : max alpha s = s := max_eq_right (le_of_lt hsa)
        rw [hmax_a] at ihc1 ihc3
        have hveq : max (max best vm) L = max (max best s) L := by rw [hsvm]
        refine ⟨?_, ?_, ?_⟩
        · intro h
          have h2 : s ≤ r := le_trans (le_max_right best s) hlow
          exact absurd (lt_of_lt_of_le hsa (le_trans h2 h)) (lt_irrefl alpha)
        · intro h
          rw [hveq]
          exact ihc2 h
        · intro h1 h2
          rw [hveq]
          rcases lt_or_le s r with h3 | h3
          · exact ihc3 h3 h2
          · have h4 : r = s :=
              le_antisymm (by exact le_trans h3 (le_refl s))
                (le_trans (le_max_right best s) hlow)
            have h5 := ihc1 (le_of_eq h4)
            refine le_antisymm ?_ h5
            rw [h4, hsvm]
            exact le_trans (le_max_right best vm) (le_max_left _ _)

theorem abFoldMin_inv
    (fab : Board → EInt → EInt → EInt × Nat × Bool)
    (fmm : Board → EInt × Nat) (b : Board) :
    ∀ (moves : List (Fin 3 × Fin 3)) (best alpha beta : EInt) (cnt : Nat) (pr : Bool),
      (∀ p ∈ moves, ∀ a bt : EInt, a < bt →
        approxInv (fab (setCell b p.1 p.2 Cell.X) a bt).1
          (fmm (setCell b p.1 p.2 Cell.X)).1 a bt) →
      beta ≤ best → alpha < beta →
      approxInv (abFoldMin fab b moves best alpha beta cnt pr).1
        (foldlMin (fun q => (fmm (setCell b q.1 q.2 Cell.X)).1) best moves)
        alpha beta := by
  intro moves
  induction moves with
  | nil =>
    intro best alpha beta cnt pr hch hbb hab
    exact approxInv_of_eq rfl
  | cons p rest ih =>
    intro best alpha beta cnt pr hch hbb hab
    obtain ⟨hc1, hc2, hc3⟩ := hch p (List.mem_cons_self p rest) alpha beta hab
    have hvm : foldlMin (fun q => (fmm (setCell b q.1 q.2 Cell.X)).1) best (p :: rest) ≤
        (fmm (setCell b p.1 p.2 Cell.X)).1 :=
      foldlMin_le_mem (fun q => (fmm (setCell b q.1 q.2 Cell.X)).1)
        (p :: rest) best p (List.mem_cons_self p rest)
    by_cases hbr : min beta (fab (setCell b p.1 p.2 Cell.X) alpha beta).1 ≤ alpha
    · -- the break is taken after the first child
      rw [abFoldMin_cons_pos fab b p rest best alpha beta cnt pr hbr]
      have hsa : (fab (setCell b p.1 p.2 Cell.X) alpha beta).1 ≤ alpha :=
        le_alpha_of_min hab hbr
      have hvms := hc1 hsa
      have hr : min best (fab (setCell b p.1 p.2 Cell.X) alpha beta).1 =
          (fab (setCell b p.1 p.2 Cell.X) alpha beta).1 :=
        min_eq_right (le_trans (le_of_lt (lt_of_le_of_lt hsa hab)) hbb)
      refine ⟨?_, ?_, ?_⟩
      · intro h
        dsimp only
        rw [hr]
        exact le_trans hvm hvms
      · intro h
        dsimp only at h
        rw [hr] at h
        exact absurd hab (not_lt.mpr (le_trans h hsa))
      · intro h1 h2
        dsimp only at h1
        rw [hr] at h1
        exact absurd (lt_of_lt_of_le h1 hsa) (lt_irrefl alpha)
    · -- the loop continues with the narrowed running minimum
      rw [abFoldMin_cons_neg fab b p rest best alpha beta cnt pr hbr]
      have hab2 : alpha < min beta (fab (setCell b p.1 p.2 Cell.X) alpha beta).1 :=
        not_le.mp hbr
      have hbb2 : min beta (fab (setCell b p.1 p.2 Cell.X) alpha beta).1 ≤
          min best (fab (setCell b p.1 p.2 Cell.X) alpha beta).1 :=
        min_le_min hbb (le_refl _)
      have hch2 : ∀ q ∈ rest, ∀ a bt : EInt, a < bt →
          approxInv (fab (setCell b q.1 q.2 Cell.X) a bt).1
            (fmm (setCell b q.1 q.2 Cell.X)).1 a bt :=
        fun q hq => hch q (List.mem_cons_of_mem p hq)
      have ihc := ih (min best (fab (setCell b p.1 p.2 Cell.X) alpha beta).1)
        alpha (min beta (fab (setCell b p.1 p.2 Cell.X) alpha beta).1)
        (cnt + (fab (setCell b p.1 p.2 Cell.X) alpha beta).2.1)
        (pr || (fab (setCell b p.1 p.2 Cell.X) alpha beta).2.2)
        hch2 hbb2 hab2
      obtain ⟨ihc1, ihc2, ihc3⟩ := ihc
      have hup := abFoldMin_le fab b rest
        (min best (fab (setCell b p.1 p.2 Cell.X) alpha beta).1)
        alpha (min beta (fab (setCell b p.1 p.2 Cell.X) alpha beta).1)
        (cnt + (fab (setCell b p.1 p.2 Cell.X) alpha beta).2.1)
        (pr || (fab (setCell b p.1 p.2 Cell.X) alpha beta).2.2)
      set s := (fab (setCell b p.1 p.2 Cell.X) alpha beta).1 with hs
      set vm := (fmm (setCell b p.1 p.2 Cell.X)).1 with hvmdef
      set r := (abFoldMin fab b rest (min best s) alpha (min beta s)
        (cnt + (fab (setCell b p.1 p.2 Cell.X) alpha beta).2.1)
        (pr || (fab (setCell b p.1 p.2 Cell.X) alpha beta).2.2)).1 with hrdef
      set M := foldlMin (fun q => (fmm (setCell b q.1 q.2 Cell.X)).1) ⊤ rest with hMdef
      have hv : foldlMin (fun q => (fmm (setCell b q.1 q.2 Cell.X)).1) best (p :: rest) =
          min (min best vm) M := by
        rw [foldlMin_cons, foldlMin_shift]
      have hv2 : foldlMin (fun q => (fmm (setCell b q.1 q.2 Cell.X)).1) (min best s) rest =
          min (min best s) M := by
        rw [foldlMin_shift]
      rw [hv] at hvm ⊢
      rw [hv2] at ihc1 ihc2 ihc3
      rcases le_or_lt beta s with hsb | hsb
      · -- the head child failed high: beta ≤ s ≤ vm
        have hsvm : s ≤ vm := hc2 hsb
        have hmin_b : min beta s = beta := min_eq_left hsb
        rw [hmin_b] at ihc2 ihc3
        have hbsge : beta ≤ min best s := le_min hbb hsb
        have hmono : min (min best s) M ≤ min (min best vm) M :=
          min_le_min (min_le_min (le_refl best) hsvm) (le_refl M)
        refine ⟨?_, ?_, ?_⟩
        · intro h
          have h1 := ihc1 h
          have h2 : r < min best s := lt_of_le_of_lt h (lt_of_lt_of_le hab hbsge)
          rcases min_le_iff.mp h1 with h3 | h3
          · exact absurd (lt_of_le_of_lt h3 h2) (lt_irrefl (min best s))
          · exact le_trans (min_le_right (min best vm) M) h3
        · intro h
          exact le_trans (ihc2 h) hmono
        · intro h1 h2
          have heq := ihc3 h1 h2
          have h3 : r < min best s := lt_of_lt_of_le h2 hbsge
          rcases min_choice (min best s) M with h4 | h4
          · rw [h4] at heq
            exact absurd (lt_of_lt_of_le h3 (le_of_eq heq.symm)) (lt_irrefl r)
          · rw [h4] at heq
            rw [heq]
            have h5 : M ≤ min best vm := by
              rw [← heq]
              exact le_of_lt (lt_of_lt_of_le h3 (min_le_min (le_refl best) hsvm))
            exact (min_eq_right h5).symm
      · -- the head child landed in the window: its score is exact
        have hsa2 : alpha < s := lt_of_lt_of_le hab2 (min_le_right beta s)
        have hsvm : s = vm := hc3 hsa2 hsb
        have hmin_b : min beta s = s := min_eq_right (le_of_lt hsb)
        rw [hmin_b] at ihc2 ihc3
        have hveq : min (min best vm) M = min (min best s) M := by rw [hsvm]
        refine ⟨?_, ?_, ?_⟩
        · intro h
          rw [hveq]
          exact ihc1 h
        · intro h
          have h2 : r ≤ s := le_trans hup (min_le_right best s)
          exact absurd (lt_of_le_of_lt (le_trans h h2) hsb) (lt_irrefl beta)
        · intro h1 h2
          rw [hveq]
          rcases lt_or_le r s with h3 | h3
          · exact ihc3 h1 h3
          · have h4 : r = s :=
              le_antisymm (le_trans hup (min_le_right best s)) h3
            have h5 := ihc2 (le_of_eq h4.symm)
            refine le_antisymm h5 ?_
            rw [h4, hsvm]
            exact le_trans (min_le_left _ _) (min_le_right best vm)

/-- At every node and every window, the alpha-beta score is a fail-soft
approximation of the minimax score. -/
theorem alpha_beta_approx : ∀ (fuel : Nat) (b : Board) (depth : Nat) (m : Bool)
    (alpha beta : EInt), alpha < beta →
    approxInv (alpha_beta_fuel fuel b depth alpha beta m).1
      (minimax_fuel fuel b depth m).1 alpha beta := by
  intro fuel
  induction fuel with
  | zero =>
    intro b depth m alpha beta hab
    cases hst : game_status b with
    | none => exact approxInv_of_eq (by simp [alpha_beta_fuel, minimax_fuel, hst])
    | some g =>
      cases g with
      | X => exact approxInv_of_eq (by simp [alpha_beta_fuel, minimax_fuel, hst])
      | O => exact approxInv_of_eq (by simp [alpha_beta_fuel, minimax_fuel, hst])
      | draw => exact approxInv_of_eq (by simp [alpha_beta_fuel, minimax_fuel, hst])
  | succ fuel ih =>
    intro b depth m alpha beta hab
    cases hst : game_status b with
    | some g =>
      cases g with
      | X => exact approxInv_of_eq (by simp [alpha_beta_fuel, minimax_fuel, hst])
      | O => exact approxInv_of_eq (by simp [alpha_beta_fuel, minimax_fuel, hst])
      | draw => exact approxInv_of_eq (by simp [alpha_beta_fuel, minimax_fuel, hst])
    | none =>
      cases m with
      | true =>
        have hu1 : alpha_beta_fuel (fuel + 1) b depth alpha beta true =
            abFoldMax (fun b2 a2 bt2 => alpha_beta_fuel fuel b2 (depth + 1) a2 bt2 false)
              b (find_empty_spots b) ⊥ alpha beta 1 false := by
          simp only [alpha_beta_fuel, hst, if_pos]
        have hu2 : minimax_fuel (fuel + 1) b depth true =
            mmFoldMax (fun b2 => minimax_fuel fuel b2 (depth + 1) false)
              b (find_empty_spots b) ⊥ 1 := by
          simp only [minimax_fuel, hst, if_pos]
        rw [hu1, hu2, mmFoldMax_fst]
        exact abFoldMax_inv
          (fun b2 a2 bt2 => alpha_beta_fuel fuel b2 (depth + 1) a2 bt2 false)
          (fun b2 => minimax_fuel fuel b2 (depth + 1) false) b
          (find_empty_spots b) ⊥ alpha beta 1 false
          (fun p _ a bt h2 => ih _ (depth + 1) false a bt h2) bot_le hab
      | false =>
        have hu1 : alpha_beta_fuel (fuel + 1) b depth alpha beta false =
            abFoldMin (fun b2 a2 bt2 => alpha_beta_fuel fuel b2 (depth + 1) a2 bt2 true)
              b (find_empty_spots b) ⊤ alpha beta 1 false := by
          simp only [alpha_beta_fuel, hst, Bool.false_eq_true, if_false]
        have hu2 : minimax_fuel (fuel + 1) b depth false =
            mmFoldMin (fun b2 => minimax_fuel fuel b2 (depth + 1) true)
              b (find_empty_spots b) ⊤ 1 := by
          simp only [minimax_fuel, hst, Bool.false_eq_true, if_false]
        rw [hu1, hu2, mmFoldMin_fst]
        exact abFoldMin_inv
          (fun b2 a2 bt2 => alpha_beta_fuel fuel b2 (depth + 1) a2 bt2 true)
          (fun b2 => minimax_fuel fuel b2 (depth + 1) true) b
          (find_empty_spots b) ⊤ alpha beta 1 false
          (fun p _ a bt h2 => ih _ (depth + 1) true a bt h2) le_top hab

/-- Alpha-beta from the full window computes exactly the minimax score. -/
theorem ab_eq_mm_val (fuel : Nat) (b : Board) (depth : Nat) (m : Bool) :
    (alpha_beta_fuel fuel b depth ⊥ ⊤ m).1 = (minimax_fuel fuel b depth m).1 := by
  obtain ⟨n, hn⟩ := minimax_int fuel b depth m
  obtain ⟨h1, h2, h3⟩ :=
    alpha_beta_approx fuel b depth m ⊥ ⊤ (bot_lt_top : (⊥ : EInt) < ⊤)
  rcases le_or_lt (alpha_beta_fuel fuel b depth ⊥ ⊤ m).1 ⊥ with h | h
  · have h4 := h1 h
    rw [hn] at h4
    exact absurd (le_trans h4 h) (not_le.mpr (bot_lt_iv n))
  · rcases le_or_lt ⊤ (alpha_beta_fuel fuel b depth ⊥ ⊤ m).1 with h4 | h4
    · have h5 := h2 h4
      rw [hn] at h5
      exact absurd (le_trans h4 h5) (not_le.mpr (iv_lt_top n))
    · exact h3 h h4

theorem abFoldMax_cnt
    (fab : Board → EInt → EInt → EInt × Nat × Bool)
    (fmm : Board → EInt × Nat) (b : Board) :
    ∀ (moves : List (Fin 3 × Fin 3)) (best alpha beta : EInt) (cnt : Nat) (pr : Bool),
      (∀ p ∈ moves, ∀ a bt : EInt, a < bt →
        (fab (setCell b p.1 p.2 Cell.O) a bt).2.1 ≤ (fmm (setCell b p.1 p.2 Cell.O)).2 ∧
        ((fab (setCell b p.1 p.2 Cell.O) a bt).2.2 = true →
          (fab (setCell b p.1 p.2 Cell.O) a bt).2.1 < (fmm (setCell b p.1 p.2 Cell.O)).2)) →
      (∀ p ∈ moves, 1 ≤ (fmm (setCell b p.1 p.2 Cell.O)).2) →
      alpha < beta →
      ((abFoldMax fab b moves best alpha beta cnt pr).2.1 ≤
        cnt + (moves.map (fun q => (fmm (setCell b q.1 q.2 Cell.O)).2)).sum) ∧
      (pr = false → (abFoldMax fab b moves best alpha beta cnt pr).2.2 = true →
        (abFoldMax fab b moves best alpha beta cnt pr).2.1 <
          cnt + (moves.map (fun q => (fmm (setCell b q.1 q.2 Cell.O)).2)).sum) := by
  intro moves
  induction moves with
  | nil =>
    intro best alpha beta cnt pr hch hpos hab
    refine ⟨by simp [abFoldMax], ?_⟩
    intro hpr hflag
    rw [abFoldMax] at hflag
    simp only at hflag
    rw [hpr] at hflag
    cases hflag
  | cons p rest ih =>
    intro best alpha beta cnt pr hch hpos hab
    obtain ⟨hcnt, hstrict⟩ := hch p (List.mem_cons_self p rest) alpha beta hab
    have hposrest : ∀ q ∈ rest, 1 ≤ (fmm (setCell b q.1 q.2 Cell.O)).2 :=
      fun q hq => hpos q (List.mem_cons_of_mem p hq)
    have hchrest : ∀ q ∈ rest, ∀ a bt : EInt, a < bt →
        (fab (setCell b q.1 q.2 Cell.O) a bt).2.1 ≤ (fmm (setCell b q.1 q.2 Cell.O)).2 ∧
        ((fab (setCell b q.1 q.2 Cell.O) a bt).2.2 = true →
          (fab (setCell b q.1 q.2 Cell.O) a bt).2.1 < (fmm (setCell b q.1 q.2 Cell.O)).2) :=
      fun q hq => hch q (List.mem_cons_of_mem p hq)
    have hsum : ((p :: rest).map (fun q => (fmm (setCell b q.1 q.2 Cell.O)).2)).sum =
        (fmm (setCell b p.1 p.2 Cell.O)).2 +
          (rest.map (fun q => (fmm (setCell b q.1 q.2 Cell.O)).2)).sum := by
      simp
    by_cases hbr : beta ≤ max alpha (fab (setCell b p.1 p.2 Cell.O) alpha beta).1
    · rw [abFoldMax_cons_pos fab b p rest best alpha beta cnt pr hbr, hsum]
      constructor
      · dsimp only
        omega
      · intro hpr hflag
        dsimp only at hflag ⊢
        rw [hpr, Bool.false_or] at hflag
        cases hflag2 : (fab (setCell b p.1 p.2 Cell.O) alpha beta).2.2 with
        | true =>
          have := hstrict hflag2
          omega
        | false =>
          rw [hflag2, Bool.false_or] at hflag
          have hne : rest ≠ [] := by
            intro hcon
            rw [hcon] at hflag
            simp at hflag
          obtain ⟨q, hq⟩ := List.exists_mem_of_ne_nil rest hne
          have h1 : (fmm (setCell b q.1 q.2 Cell.O)).2 ≤
              (rest.map (fun x => (fmm (setCell b x.1 x.2 Cell.O)).2)).sum :=
            List.single_le_sum (fun x _ => Nat.zero_le x) _
              (List.mem_map_of_mem (fun x => (fmm (setCell b x.1 x.2 Cell.O)).2) hq)
          have h2 := hposrest q hq
          omega
    · rw [abFoldMax_cons_neg fab b p rest best alpha beta cnt pr hbr, hsum]
      have hab2 : max alpha (fab (setCell b p.1 p.2 Cell.O) alpha beta).1 < beta :=
        not_le.mp hbr
      have ihc := ih (max best (fab (setCell b p.1 p.2 Cell.O) alpha beta).1)
        (max alpha (fab (setCell b p.1 p.2 Cell.O) alpha beta).1) beta
        (cnt + (fab (setCell b p.1 p.2 Cell.O) alpha beta).2.1)
        (pr || (fab (setCell b p.1 p.2 Cell.O) alpha beta).2.2)
        hchrest hposrest hab2
      obtain ⟨ihc1, ihc2⟩ := ihc
      constructor
      · omega
      · intro hpr hflag
        rw [hpr, Bool.false_or] at ihc1 ihc2 hflag ⊢
        by_cases hflag2 : (fab (setCell b p.1 p.2 Cell.O) alpha beta).2.2 = true
        · rw [hflag2] at ihc1 ⊢
          have := hstrict hflag2
          omega
        · rw [Bool.not_eq_true] at hflag2
          rw [hflag2] at ihc1 ihc2 hflag ⊢
          have := ihc2 rfl hflag
          omega

theorem abFoldMin_cnt
    (fab : Board → EInt → EInt → EInt × Nat × Bool)
    (fmm : Board → EInt × Nat) (b : Board) :
    ∀ (moves : List (Fin 3 × Fin 3)) (best alpha beta : EInt) (cnt : Nat) (pr : Bool),
      (∀ p ∈ moves, ∀ a bt : EInt, a < bt →
        (fab (setCell b p.1 p.2 Cell.X) a bt).2.1 ≤ (fmm (setCell b p.1 p.2 Cell.X)).2 ∧
        ((fab (setCell b p.1 p.2 Cell.X) a bt).2.2 = true →
          (fab (setCell b p.1 p.2 Cell.X) a bt).2.1 < (fmm (setCell b p.1 p.2 Cell.X)).2)) →
      (∀ p ∈ moves, 1 ≤ (fmm (setCell b p.1 p.2 Cell.X)).2) →
      alpha < beta →
      ((abFoldMin fab b moves best alpha beta cnt pr).2.1 ≤
        cnt + (moves.map (fun q => (fmm (setCell b q.1 q.2 Cell.X)).2)).sum) ∧
      (pr = false → (abFoldMin fab b moves best alpha beta cnt pr).2.2 = true →
        (abFoldMin fab b moves best alpha beta cnt pr).2.1 <
          cnt + (moves.map (fun q => (fmm (setCell b q.1 q.2 Cell.X)).2)).sum) := by
  intro moves
  induction moves with
  | nil =>
    intro best alpha beta cnt pr hch hpos hab
    refine ⟨by simp [abFoldMin], ?_⟩
    intro hpr hflag
    rw [abFoldMin] at hflag
    simp only at hflag
    rw [hpr] at hflag
    cases hflag
  | cons p rest ih =>
    intro best alpha beta cnt pr hch hpos hab
    obtain ⟨hcnt, hstrict⟩ := hch p (List.mem_cons_self p rest) alpha beta hab
    have hposrest : ∀ q ∈ rest, 1 ≤ (fmm (setCell b q.1 q.2 Cell.X)).2 :=
      fun q hq => hpos q (List.mem_cons_of_mem p hq)
    have hchrest : ∀ q ∈ rest, ∀ a bt : EInt, a < bt →
        (fab (setCell b q.1 q.2 Cell.X) a bt).2.1 ≤ (fmm (setCell b q.1 q.2 Cell.X)).2 ∧
        ((fab (setCell b q.1 q.2 Cell.X) a bt).2.2 = true →
          (fab (setCell b q.1 q.2 Cell.X) a bt).2.1 < (fmm (setCell b q.1 q.2 Cell.X)).2) :=
      fun q hq => hch q (List.mem_cons_of_mem p hq)
    have hsum : ((p :: rest).map (fun q => (fmm (setCell b q.1 q.2 Cell.X)).2)).sum =
        (fmm (setCell b p.1 p.2 Cell.X)).2 +
          (rest.map (fun q => (fmm (setCell b q.1 q.2 Cell.X)).2)).sum := by
      simp
    by_cases hbr : min beta (fab (setCell b p.1 p.2 Cell.X) alpha beta).1 ≤ alpha
    · rw [abFoldMin_cons_pos fab b p rest best alpha beta cnt pr hbr, hsum]
      constructor
      · dsimp only
        omega
      · intro hpr hflag
        dsimp only at hflag ⊢
        rw [hpr, Bool.false_or] at hflag
        cases hflag2 : (fab (setCell b p.1 p.2 Cell.X) alpha beta).2.2 with
        | true =>
          have := hstrict hflag2
          omega
        | false =>
          rw [hflag2, Bool.false_or] at hflag
          have hne : rest ≠ [] := by
            intro hcon
            rw [hcon] at hflag
            simp at hflag
          obtain ⟨q, hq⟩ := List.exists_mem_of_ne_nil rest hne
          have h1 : (fmm (setCell b q.1 q.2 Cell.X)).2 ≤
              (rest.map (fun x => (fmm (setCell b x.1 x.2 Cell.X)).2)).sum :=
            List.single_le_sum (fun x _ => Nat.zero_le x) _
              (List.mem_map_of_mem (fun x => (fmm (setCell b x.1 x.2 Cell.X)).2) hq)
          have h2 := hposrest q hq
          omega
    · rw [abFoldMin_cons_neg fab b p rest best alpha beta cnt pr hbr, hsum]
      have hab2 : alpha < min beta (fab (setCell b p.1 p.2 Cell.X) alpha beta).1 :=
        not_le.mp hbr
      have ihc := ih (min best (fab (setCell b p.1 p.2 Cell.X) alpha beta).1)
        alpha (min beta (fab (setCell b p.1 p.2 Cell.X) alpha beta).1)
        (cnt + (fab (setCell b p.1 p.2 Cell.X) alpha beta).2.1)
        (pr || (fab (setCell b p.1 p.2 Cell.X) alpha beta).2.2)
        hchrest hposrest hab2
      obtain ⟨ihc1, ihc2⟩ := ihc
      constructor
      · omega
      · intro hpr hflag
        rw [hpr, Bool.false_or] at ihc1 ihc2 hflag ⊢
        by_cases hflag2 : (fab (setCell b p.1 p.2 Cell.X) alpha beta).2.2 = true
        · rw [hflag2] at ihc1 ⊢
          have := hstrict hflag2
          omega
        · rw [Bool.not_eq_true] at hflag2
          rw [hflag2] at ihc1 ihc2 hflag ⊢
          have := ihc2 rfl hflag
          omega

/-- Alpha-beta performs no more counter increments than minimax, and
strictly fewer as soon as a break skipped a sibling anywhere. -/
theorem alpha_beta_cnt : ∀ (fuel : Nat) (b : Board) (depth : Nat) (m : Bool)
    (alpha beta : EInt), alpha < beta →
    ((alpha_beta_fuel fuel b depth alpha beta m).2.1 ≤ (minimax_fuel fuel b depth m).2) ∧
    ((alpha_beta_fuel fuel b depth alpha beta m).2.2 = true →
      (alpha_beta_fuel fuel b depth alpha beta m).2.1 < (minimax_fuel fuel b depth m).2) := by
  intro fuel
  induction fuel with
  | zero =>
    intro b depth m alpha beta hab
    cases hst : game_status b with
    | none => constructor
              · simp [alpha_beta_fuel, minimax_fuel, hst]
              · simp [alpha_beta_fuel, hst]
    | some g =>
      cases g with
      | X => constructor
             · simp [alpha_beta_fuel, minimax_fuel, hst]
             · simp [alpha_beta_fuel, hst]
      | O => constructor
             · simp [alpha_beta_fuel, minimax_fuel, hst]
             · simp [alpha_beta_fuel, hst]
      | draw => constructor
                · simp [alpha_beta_fuel, minimax_fuel, hst]
                · simp [alpha_beta_fuel, hst]
  | succ fuel ih =>
    intro b depth m alpha beta hab
    cases hst : game_status b with
    | some g =>
      cases g with
      | X => constructor
             · simp [alpha_beta_fuel, minimax_fuel, hst]
             · simp [alpha_beta_fuel, hst]
      | O => constructor
             · simp [alpha_beta_fuel, minimax_fuel, hst]
             · simp [alpha_beta_fuel, hst]
      | draw => constructor
                · simp [alpha_beta_fuel, minimax_fuel, hst]
                · simp [alpha_beta_fuel, hst]
    | none =>
      cases m with
      | true =>
        have hu1 : alpha_beta_fuel (fuel + 1) b depth alpha beta true =
            abFoldMax (fun b2 a2 bt2 => alpha_beta_fuel fuel b2 (depth + 1) a2 bt2 false)
              b (find_empty_spots b) ⊥ alpha beta 1 false := by
          simp only [alpha_beta_fuel, hst, if_pos]
        have hu2 : minimax_fuel (fuel + 1) b depth true =
            mmFoldMax (fun b2 => minimax_fuel fuel b2 (depth + 1) false)
              b (find_empty_spots b) ⊥ 1 := by
          simp only [minimax_fuel, hst, if_pos]
        rw [hu1, hu2, mmFoldMax_snd]
        have hres := abFoldMax_cnt
          (fun b2 a2 bt2 => alpha_beta_fuel fuel b2 (depth + 1) a2 bt2 false)
          (fun b2 => minimax_fuel fuel b2 (depth + 1) false) b
          (find_empty_spots b) ⊥ alpha beta 1 false
          (fun p _ a bt h2 => ih _ (depth + 1) false a bt h2)
          (fun p _ => minimax_cnt_pos fuel _ (depth + 1) false) hab
        exact ⟨hres.1, hres.2 rfl⟩
      | false =>
        have hu1 : alpha_beta_fuel (fuel + 1) b depth alpha beta false =
            abFoldMin (fun b2 a2 bt2 => alpha_beta_fuel fuel b2 (depth + 1) a2 bt2 true)
              b (find_empty_spots b) ⊤ alpha beta 1 false := by
          simp only [alpha_beta_fuel, hst, Bool.false_eq_true, if_false]
        have hu2 : minimax_fuel (fuel + 1) b depth false =
            mmFoldMin (fun b2 => minimax_fuel fuel b2 (depth + 1) true)
              b (find_empty_spots b) ⊤ 1 := by
          simp only [minimax_fuel, hst, Bool.false_eq_true, if_false]
        rw [hu1, hu2, mmFoldMin_snd]
        have hres := abFoldMin_cnt
          (fun b2 a2 bt2 => alpha_beta_fuel fuel b2 (depth + 1) a2 bt2 true)
          (fun b2 => minimax_fuel fuel b2 (depth + 1) true) b
          (find_empty_spots b) ⊤ alpha beta 1 false
          (fun p _ a bt h2 => ih _ (depth + 1) true a bt h2)
          (fun p _ => minimax_cnt_pos fuel _ (depth + 1) true) hab
        exact ⟨hres.1, hres.2 rfl⟩

theorem abFoldMax_congr (f1 f2 : Board → EInt → EInt → EInt × Nat × Bool) (b : Board)
    (l : List (Fin 3 × Fin 3))
    (hf : ∀ p ∈ l, ∀ a bt : EInt,
      f1 (setCell b p.1 p.2 Cell.O) a bt = f2 (setCell b p.1 p.2 Cell.O) a bt) :
    ∀ (best alpha beta : EInt) (cnt : Nat) (pr : Bool),
      abFoldMax f1 b l best alpha beta cnt pr = abFoldMax f2 b l best alpha beta cnt pr := by
  induction l with
  | nil => intro best alpha beta cnt pr; rfl
  | cons p rest ih =>
    intro best alpha beta cnt pr
    simp only [abFoldMax]
    rw [hf p (List.mem_cons_self p rest) alpha beta]
    split
    · rfl
    · exact ih (fun q hq => hf q (List.mem_cons_of_mem p hq)) _ _ _ _ _

theorem abFoldMin_congr (f1 f2 : Board → EInt → EInt → EInt × Nat × Bool) (b : Board)
    (l : List (Fin 3 × Fin 3))
    (hf : ∀ p ∈ l, ∀ a bt : EInt,
      f1 (setCell b p.1 p.2 Cell.X) a bt = f2 (setCell b p.1 p.2 Cell.X) a bt) :
    ∀ (best alpha beta : EInt) (cnt : Nat) (pr : Bool),
      abFoldMin f1 b l best alpha beta cnt pr = abFoldMin f2 b l best alpha beta cnt pr := by
  induction l with
  | nil => intro best alpha beta cnt pr; rfl
  | cons p rest ih =>
    intro best alpha beta cnt pr
    simp only [abFoldMin]
    rw [hf p (List.mem_cons_self p rest) alpha beta]
    split
    · rfl
    · exact ih (fun q hq => hf q (List.mem_cons_of_mem p hq)) _ _ _ _ _

theorem alpha_beta_fuel_eq : ∀ (fuel fuel2 : Nat) (b : Board) (depth : Nat)
    (alpha beta : EInt) (m : Bool),
    countEmpty b ≤ fuel → countEmpty b ≤ fuel2 →
    alpha_beta_fuel fuel b depth alpha beta m = alpha_beta_fuel fuel2 b depth alpha beta m := by
  intro fuel
  induction fuel with
  | zero =>
    intro fuel2 b depth alpha beta m h1 h2
    have h0 : countEmpty b = 0 := Nat.le_zero.mp h1
    cases hst : game_status b with
    | none => exact absurd hst (countEmpty_zero_game_status b h0)
    | some g =>
      cases fuel2 with
      | zero => rfl
      | succ f2 =>
        cases g with
        | X => simp only [alpha_beta_fuel, hst]
        | O => simp only [alpha_beta_fuel, hst]
        | draw => simp only [alpha_beta_fuel, hst]
  | succ fuel ih =>
    intro fuel2 b depth alpha beta m h1 h2
    cases hst : game_status b with
    | some g =>
      cases fuel2 with
      | zero =>
        cases g with
        | X => simp only [alpha_beta_fuel, hst]
        | O => simp only [alpha_beta_fuel, hst]
        | draw => simp only [alpha_beta_fuel, hst]
      | succ f2 =>
        cases g with
        | X => simp only [alpha_beta_fuel, hst]
        | O => simp only [alpha_beta_fuel, hst]
        | draw => simp only [alpha_beta_fuel, hst]
    | none =>
      have hne0 : countEmpty b ≠ 0 := game_status_none_countEmpty b hst
      cases fuel2 with
      | zero => exact absurd (Nat.le_zero.mp h2) hne0
      | succ f2 =>
        cases m with
        | true =>
          have hu1 : alpha_beta_fuel (fuel + 1) b depth alpha beta true =
              abFoldMax (fun b2 a2 bt2 => alpha_beta_fuel fuel b2 (depth + 1) a2 bt2 false)
                b (find_empty_spots b) ⊥ alpha beta 1 false := by
            simp only [alpha_beta_fuel, hst, if_pos]
          have hu2 : alpha_beta_fuel (f2 + 1) b depth alpha beta true =
              abFoldMax (fun b2 a2 bt2 => alpha_beta_fuel f2 b2 (depth + 1) a2 bt2 false)
                b (find_empty_spots b) ⊥ alpha beta 1 false := by
            simp only [alpha_beta_fuel, hst, if_pos]
          rw [hu1, hu2]
          apply abFoldMax_congr
          intro p hp a bt
          have hemp : b p.1 p.2 = Cell.empty := (mem_find_empty_spots b p).mp hp
          have hce := countEmpty_setCell b p.1 p.2 Cell.O hemp (by decide)
          exact ih f2 _ (depth + 1) a bt false (by omega) (by omega)
        | false =>
          have hu1 : alpha_beta_fuel (fuel + 1) b depth alpha beta false =
              abFoldMin (fun b2 a2 bt2 => alpha_beta_fuel fuel b2 (depth + 1) a2 bt2 true)
                b (find_empty_spots b) ⊤ alpha beta 1 false := by
            simp only [alpha_beta_fuel, hst, Bool.false_eq_true, if_false]
          have hu2 : alpha_beta_fuel (f2 + 1) b depth alpha beta false =
              abFoldMin (fun b2 a2 bt2 => alpha_beta_fuel f2 b2 (depth + 1) a2 bt2 true)
                b (find_empty_spots b) ⊤ alpha beta 1 false := by
            simp only [alpha_beta_fuel, hst, Bool.false_eq_true, if_false]
          rw [hu1, hu2]
          apply abFoldMin_congr
          intro p hp a bt
          have hemp : b p.1 p.2 = Cell.empty := (mem_find_empty_spots b p).mp hp
          have hce := countEmpty_setCell b p.1 p.2 Cell.X hemp (by decide)
          exact ih f2 _ (depth + 1) a bt true (by omega) (by omega)

/-! ### The reference minimax recursion, as the specification words it -/

/-- The reference minimax value, following the specification text:
a terminal board scores `10 - depth` (win of `'O'`), `-10 + depth`
(win of `'X'`) or `0` (draw); otherwise the node's value is the maximum
(maximizer `'O'` to move) or minimum (minimizer `'X'` to move) of the
children obtained by playing each empty cell in row-major order, at
`depth + 1` and with the opposite side to move. -/
def specMinimax (b : Board) (depth : Nat) (maximizing : Bool) : ℤ :=
  match game_status b with
  | some GResult.O => 10 - (depth : ℤ)
  | some GResult.X => -10 + (depth : ℤ)
  | some GResult.draw => 0
  | none =>
    if maximizing then
      match (find_empty_spots b).attach.map
        (fun p => specMinimax (setCell b p.1.1 p.1.2 Cell.O) (depth + 1) false) with
      | [] => 0
      | v :: vs => vs.foldl max v
    else
      match (find_empty_spots b).attach.map
        (fun p => specMinimax (setCell b p.1.1 p.1.2 Cell.X) (depth + 1) true) with
      | [] => 0
      | v :: vs => vs.foldl min v
termination_by countEmpty b
decreasing_by
  · have hemp : b p.1.1 p.1.2 = Cell.empty := (mem_find_empty_spots b p.1).mp p.2
    have hce := countEmpty_setCell b p.1.1 p.1.2 Cell.O hemp (by decide)
    omega
  · have hemp : b p.1.1 p.1.2 = Cell.empty := (mem_find_empty_spots b p.1).mp p.2
    have hce := countEmpty_setCell b p.1.1 p.1.2 Cell.X hemp (by decide)
    omega

theorem foldlMax_iv_fold {α : Type} (g : α → ℤ) :
    ∀ (l : List α) (a : ℤ),
      foldlMax (fun p => iv (g p)) (iv a) l =
        iv (l.foldl (fun x p => max x (g p)) a) := by
  intro l
  induction l with
  | nil => intro a; rfl
  | cons p t ih =>
    intro a
    rw [foldlMax_cons, max_iv, ih]
    rfl

theorem foldlMin_iv_fold {α : Type} (g : α → ℤ) :
    ∀ (l : List α) (a : ℤ),
      foldlMin (fun p => iv (g p)) (iv a) l =
        iv (l.foldl (fun x p => min x (g p)) a) := by
  intro l
  induction l with
  | nil => intro a; rfl
  | cons p t ih =>
    intro a
    rw [foldlMin_cons, min_iv, ih]
    rfl

example (l : List (Fin 3 × Fin 3)) (b : Board) (depth : Nat) :
    (l.attach.map (fun p => specMinimax (setCell b p.1.1 p.1.2 Cell.O) (depth + 1) false)) =
      l.map (fun p => specMinimax (setCell b p.1 p.2 Cell.O) (depth + 1) false) := by
  rw [List.map_attach]
  simp

theorem minimax_fuel_spec : ∀ (fuel : Nat) (b : Board) (depth : Nat) (m : Bool),
    countEmpty b ≤ fuel →
    (minimax_fuel fuel b depth m).1 = iv (specMinimax b depth m) := by
  intro fuel
  induction fuel with
  | zero =>
    intro b depth m hle
    have h0 : countEmpty b = 0 := Nat.le_zero.mp hle
    cases hst : game_status b with
    | none => exact absurd hst (countEmpty_zero_game_status b h0)
    | some g =>
      cases g with
      | X => rw [specMinimax]; simp [minimax_fuel, hst]
      | O => rw [specMinimax]; simp [minimax_fuel, hst]
      | draw => rw [specMinimax]; simp [minimax_fuel, hst]
  | succ fuel ih =>
    intro b depth m hle
    cases hst : game_status b with
    | some g =>
      cases g with
      | X => rw [specMinimax]; simp [minimax_fuel, hst]
      | O => rw [specMinimax]; simp [minimax_fuel, hst]
      | draw => rw [specMinimax]; simp [minimax_fuel, hst]
    | none =>
      have hne := find_empty_spots_ne_nil b hst
      have hchild : ∀ p ∈ find_empty_spots b, ∀ (c : Cell), c ≠ Cell.empty →
          countEmpty (setCell b p.1 p.2 c) ≤ fuel := by
        intro p hp c hc
        have hemp : b p.1 p.2 = Cell.empty := (mem_find_empty_spots b p).mp hp
        have hce := countEmpty_setCell b p.1 p.2 c hemp hc
        omega
      cases m with
      | true =>
        have hu : minimax_fuel (fuel + 1) b depth true =
            mmFoldMax (fun b2 => minimax_fuel fuel b2 (depth + 1) false)
              b (find_empty_spots b) ⊥ 1 := by
          simp only [minimax_fuel, hst, if_pos]
        rw [hu, mmFoldMax_fst]
        rw [foldlMax_congr
          (fun p => (minimax_fuel fuel (setCell b p.1 p.2 Cell.O) (depth + 1) false).1)
          (fun p => iv (specMinimax (setCell b p.1 p.2 Cell.O) (depth + 1) false))
          (find_empty_spots b)
          (fun p hp => ih _ (depth + 1) false (hchild p hp Cell.O (by decide))) ⊥]
        rw [specMinimax]
        rw [hst]
        simp only [if_pos]
        rw [List.map_attach]
        simp only [List.pmap_eq_map]
        cases hmoves : find_empty_spots b with
        | nil => exact absurd hmoves hne
        | cons q rest =>
          rw [foldlMax_cons, max_eq_right bot_le, foldlMax_iv_fold]
          simp only [List.map_cons]
          rw [List.foldl_map]
      | false =>
        have hu : minimax_fuel (fuel + 1) b depth false =
            mmFoldMin (fun b2 => minimax_fuel fuel b2 (depth + 1) true)
              b (find_empty_spots b) ⊤ 1 := by
          simp only [minimax_fuel, hst, Bool.false_eq_true, if_false]
        rw [hu, mmFoldMin_fst]
        rw [foldlMin_congr
          (fun p => (minimax_fuel fuel (setCell b p.1 p.2 Cell.X) (depth + 1) true).1)
          (fun p => iv (specMinimax (setCell b p.1 p.2 Cell.X) (depth + 1) true))
          (find_empty_spots b)
          (fun p hp => ih _ (depth + 1) true (hchild p hp Cell.X (by decide))) ⊤]
        rw [specMinimax]
        rw [hst]
        simp only [Bool.false_eq_true, if_false]
        rw [List.map_attach]
        simp only [List.pmap_eq_map]
        cases hmoves : find_empty_spots b with
        | nil => exact absurd hmoves hne
        | cons q rest =>
          rw [foldlMin_cons, min_eq_right le_top, foldlMin_iv_fold]
          simp only [List.map_cons]
          rw [List.foldl_map]

/-! ### The move selector -/

/-- `best_value` after the whole selection loop: the maximum of the
candidate scores (starting from `float('-inf')`). -/
def bestValue (algo : Algo) (b : Board) : EInt :=
  foldlMax (searchValue algo b) ⊥ (find_empty_spots b)

theorem searchValue_int (algo : Algo) (b : Board) (p : Fin 3 × Fin 3) :
    ∃ n : ℤ, searchValue algo b p = iv n := by
  cases algo with
  | minimax => exact minimax_int 9 _ 0 false
  | alphaBeta =>
    rw [searchValue, alpha_beta_search, ab_eq_mm_val]
    exact minimax_int 9 _ 0 false

theorem find_congr {α : Type} (p q : α → Bool) :
    ∀ l : List α, (∀ x ∈ l, p x = q x) → l.find? p = l.find? q := by
  intro l
  induction l with
  | nil => intro h; rfl
  | cons a t ih =>
    intro h
    cases hpa : p a with
    | true =>
      rw [List.find?_cons_of_pos t hpa,
        List.find?_cons_of_pos t (((h a (List.mem_cons_self a t)).symm.trans hpa))]
    | false =>
      rw [List.find?_cons_of_neg t (by simp [hpa]),
        List.find?_cons_of_neg t (by simp [← h a (List.mem_cons_self a t), hpa]),
        ih (fun x hx => h x (List.mem_cons_of_mem a hx))]

/-- The selection loop keeps the first candidate that attains the
running maximum: it equals a `find?` for the overall maximum. -/
theorem bestFold_find (algo : Algo) (b : Board) :
    ∀ (l : List (Fin 3 × Fin 3)) (bp : Option (Fin 3 × Fin 3)) (bv : EInt),
      bestFold algo b l bp bv =
        ((match l.find? (fun p => decide (bv < searchValue algo b p) &&
            decide (searchValue algo b p = foldlMax (searchValue algo b) bv l)) with
          | some p => some p
          | none => bp),
         foldlMax (searchValue algo b) bv l) := by
  intro l
  induction l with
  | nil => intro bp bv; rfl
  | cons p rest ih =>
    intro bp bv
    simp only [bestFold]
    by_cases hlt : bv < searchValue algo b p
    · rw [if_pos hlt]
      have hmax : max bv (searchValue algo b p) = searchValue algo b p :=
        max_eq_right (le_of_lt hlt)
      have hF : foldlMax (searchValue algo b) bv (p :: rest) =
          foldlMax (searchValue algo b) (searchValue algo b p) rest := by
        rw [foldlMax_cons, hmax]
      by_cases hpF : searchValue algo b p =
          foldlMax (searchValue algo b) (searchValue algo b p) rest
      · -- the head already attains the maximum: it is found immediately
        have hpred : (fun q => decide (bv < searchValue algo b q) &&
            decide (searchValue algo b q =
              foldlMax (searchValue algo b) bv (p :: rest))) p = true := by
          rw [hF]
          show (decide (bv < searchValue algo b p) && decide (searchValue algo b p =
            foldlMax (searchValue algo b) (searchValue algo b p) rest)) = true
          rw [Bool.and_eq_true, decide_eq_true_eq, decide_eq_true_eq]
          exact ⟨hlt, hpF⟩
        rw [List.find?_cons_of_pos rest hpred, ih, hF]
        have hnone : rest.find? (fun q => decide (searchValue algo b p < searchValue algo b q) &&
            decide (searchValue algo b q =
              foldlMax (searchValue algo b) (searchValue algo b p) rest)) = none := by
          rw [List.find?_eq_none]
          intro q hq
          have hle := mem_le_foldlMax (searchValue algo b) rest
            (searchValue algo b p) q hq
          rw [← hpF] at hle
          simp [not_lt.mpr hle]
        rw [hnone]
      · -- the maximum lies strictly later in the list
        have hlt2 : searchValue algo b p <
            foldlMax (searchValue algo b) (searchValue algo b p) rest :=
          lt_of_le_of_ne (le_foldlMax_init _ _ _) hpF
        have hpred : (fun q => decide (bv < searchValue algo b q) &&
            decide (searchValue algo b q =
              foldlMax (searchValue algo b) bv (p :: rest))) p = false := by
          rw [hF]
          simp [hpF]
        rw [List.find?_cons_of_neg rest (by simp [hpred]), ih, hF]
        have hcongr := find_congr
          (fun q => decide (searchValue algo b p < searchValue algo b q) &&
            decide (searchValue algo b q =
              foldlMax (searchValue algo b) (searchValue algo b p) rest))
          (fun q => decide (bv < searchValue algo b q) &&
            decide (searchValue algo b q =
              foldlMax (searchValue algo b) (searchValue algo b p) rest)) rest
          (by
            intro q hq
            by_cases hqF : searchValue algo b q =
                foldlMax (searchValue algo b) (searchValue algo b p) rest
            · simp only [hqF]
              simp [hlt2, lt_trans hlt hlt2]
            · simp [hqF])
        rw [hcongr]
        rcases foldlMax_eq_init_or_mem (searchValue algo b) rest
          (searchValue algo b p) with hc | ⟨q, hq, hc⟩
        · exact absurd hc.symm hpF
        · have hsome : ∃ x ∈ rest, (fun q2 => decide (bv < searchValue algo b q2) &&
              decide (searchValue algo b q2 =
                foldlMax (searchValue algo b) (searchValue algo b p) rest)) x = true := by
            refine ⟨q, hq, ?_⟩
            show (decide (bv < searchValue algo b q) && decide (searchValue algo b q =
              foldlMax (searchValue algo b) (searchValue algo b p) rest)) = true
            rw [Bool.and_eq_true, decide_eq_true_eq, decide_eq_true_eq]
            refine ⟨?_, hc.symm⟩
            rw [← hc]
            exact lt_trans hlt hlt2
          obtain ⟨x, hx⟩ := Option.isSome_iff_exists.mp
            (List.find?_isSome.mpr hsome)
          rw [hx]
    · rw [if_neg hlt]
      have hmax : max bv (searchValue algo b p) = bv :=
        max_eq_left (not_lt.mp hlt)
      have hF : foldlMax (searchValue algo b) bv (p :: rest) =
          foldlMax (searchValue algo b) bv rest := by
        rw [foldlMax_cons, hmax]
      have hpred : (fun q => decide (bv < searchValue algo b q) &&
          decide (searchValue algo b q =
            foldlMax (searchValue algo b) bv (p :: rest))) p = false := by
        simp [hlt]
      rw [List.find?_cons_of_neg rest (by simp [hpred]), ih, hF]

/-- `calculate_best_move` returns the first candidate (row-major) whose
search score equals the overall best score. -/
theorem calculate_best_move_eq_find (algo : Algo) (b : Board) :
    calculate_best_move algo b =
      (find_empty_spots b).find?
        (fun p => decide (searchValue algo b p = bestValue algo b)) := by
  rw [calculate_best_move, calc_best, bestFold_find]
  have hcongr := find_congr
    (fun p => decide ((⊥ : EInt) < searchValue algo b p) &&
      decide (searchValue algo b p = foldlMax (searchValue algo b) ⊥ (find_empty_spots b)))
    (fun p => decide (searchValue algo b p = bestValue algo b))
    (find_empty_spots b)
    (by
      intro x hx
      obtain ⟨n, hn⟩ := searchValue_int algo b x
      show (decide ((⊥ : EInt) < searchValue algo b x) &&
        decide (searchValue algo b x =
          foldlMax (searchValue algo b) ⊥ (find_empty_spots b))) =
        decide (searchValue algo b x = bestValue algo b)
      have h1 : (⊥ : EInt) < searchValue algo b x := by
        rw [hn]; exact bot_lt_iv n
      rw [decide_eq_true h1, Bool.true_and, bestValue])
  dsimp only
  rw [hcongr]
  cases hfind : (find_empty_spots b).find?
      (fun p => decide (searchValue algo b p = bestValue algo b)) with
  | none => rfl
  | some q => rfl

/-- On a board with an empty cell the selection loop settles on some
candidate (the score of the first candidate already beats `-inf`). -/
theorem calculate_best_move_some (algo : Algo) (b : Board)
    (hne : find_empty_spots b ≠ []) :
    ∃ p, calculate_best_move algo b = some p ∧ p ∈ find_empty_spots b := by
  rw [calculate_best_move_eq_find]
  rcases foldlMax_eq_init_or_mem (searchValue algo b) (find_empty_spots b) ⊥ with
    hc | ⟨q, hq, hc⟩
  · obtain ⟨x, hx⟩ := List.exists_mem_of_ne_nil (find_empty_spots b) hne
    obtain ⟨n, hn⟩ := searchValue_int algo b x
    have h1 := mem_le_foldlMax (searchValue algo b) (find_empty_spots b) ⊥ x hx
    rw [hc, hn] at h1
    exact absurd h1 (not_le.mpr (bot_lt_iv n))
  · have hsome : ∃ x ∈ find_empty_spots b,
        (fun p => decide (searchValue algo b p = bestValue algo b)) x = true := by
      refine ⟨q, hq, ?_⟩
      show decide (searchValue algo b q = bestValue algo b) = true
      rw [decide_eq_true_eq, bestValue, hc]
    obtain ⟨x, hx⟩ := Option.isSome_iff_exists.mp (List.find?_isSome.mpr hsome)
    exact ⟨x, hx, List.mem_of_find?_eq_some hx⟩

/-! ### Threading `self.grid` through the searches

The Python searches temporarily set `self.grid = board` to reuse
`game_status`/`score_position`, restore it, and then recurse.  These
companions make that hidden state explicit: they take the instance's
grid, perform the same traversal (including the alpha-beta breaks), and
return the grid as it stands when the call returns. -/

def mmGridFold (f : Board → Board → Board) (b : Board) (sym : Cell) :
    List (Fin 3 × Fin 3) → Board → Board
  | [], g => g
  | p :: rest, g => mmGridFold f b sym rest (f g (setCell b p.1 p.2 sym))

/-- `minimax_search`'s effect on `self.grid`: swap in the simulated
board for the status queries, restore, then thread the grid through the
recursive calls in order. -/
def minimax_grid : Nat → Board → Board → Nat → Bool → Board
  | 0, grid, board, _, _ =>
    (match game_status board with
     | some _ => grid
     | none => grid)
  | Nat.succ fuel2, grid, board, depth, maximizing_player =>
    (match game_status board with
     | some _ => grid
     | none =>
       if maximizing_player then
         mmGridFold (fun g b2 => minimax_grid fuel2 g b2 (depth + 1) false)
           board Cell.O (find_empty_spots board) grid
       else
         mmGridFold (fun g b2 => minimax_grid fuel2 g b2 (depth + 1) true)
           board Cell.X (find_empty_spots board) grid)

def abGridFoldMax (f : Board → Board → EInt → EInt → EInt × Board) (b : Board) :
    List (Fin 3 × Fin 3) → EInt → EInt → EInt → Board → EInt × Board
  | [], best, _, _, g => (best, g)
  | p :: rest, best, alpha, beta, g =>
    let r := f g (setCell b p.1 p.2 Cell.O) alpha beta
    if beta ≤ max alpha r.1 then (max best r.1, r.2)
    else abGridFoldMax f b rest (max best r.1) (max alpha r.1) beta r.2

def abGridFoldMin (f : Board → Board → EInt → EInt → EInt × Board) (b : Board) :
    List (Fin 3 × Fin 3) → EInt → EInt → EInt → Board → EInt × Board
  | [], best, _, _, g => (best, g)
  | p :: rest, best, alpha, beta, g =>
    let r := f g (setCell b p.1 p.2 Cell.X) alpha beta
    if min beta r.1 ≤ alpha then (min best r.1, r.2)
    else abGridFoldMin f b rest (min best r.1) alpha (min beta r.1) r.2

/-- `alpha_beta_search`'s score together with its effect on `self.grid`
(the same traversal, breaks included). -/
def alpha_beta_grid : Nat → Board → Board → Nat → EInt → EInt → Bool → EInt × Board
  | 0, grid, board, depth, _, _, _ =>
    (match game_status board with
     | some GResult.O => (iv (10 - (depth : ℤ)), grid)
     | some GResult.X => (iv (-10 + (depth : ℤ)), grid)
     | some GResult.draw => (iv 0, grid)
     | none => (iv 0, grid))
  | Nat.succ fuel2, grid, board, depth, alpha, beta, maximizing_player =>
    (match game_status board with
     | some GResult.O => (iv (10 - (depth : ℤ)), grid)
     | some GResult.X => (iv (-10 + (depth : ℤ)), grid)
     | some GResult.draw => (iv 0, grid)
     | none =>
       if maximizing_player then
         abGridFoldMax (fun g b2 a2 bt2 => alpha_beta_grid fuel2 g b2 (depth + 1) a2 bt2 false)
           board (find_empty_spots board) ⊥ alpha beta grid
       else
         abGridFoldMin (fun g b2 a2 bt2 => alpha_beta_grid fuel2 g b2 (depth + 1) a2 bt2 true)
           board (find_empty_spots board) ⊤ alpha beta grid)

theorem mmGridFold_id (f : Board → Board → Board) (b : Board) (sym : Cell)
    (hf : ∀ g b2, f g b2 = g) :
    ∀ (l : List (Fin 3 × Fin 3)) (g : Board), mmGridFold f b sym l g = g := by
  intro l
  induction l with
  | nil => intro g; rfl
  | cons p rest ih => intro g; rw [mmGridFold, hf]; exact ih g

theorem abGridFoldMax_id (f : Board → Board → EInt → EInt → EInt × Board) (b : Board)
    (hf : ∀ g b2 a bt, (f g b2 a bt).2 = g) :
    ∀ (l : List (Fin 3 × Fin 3)) (best alpha beta : EInt) (g : Board),
      (abGridFoldMax f b l best alpha beta g).2 = g := by
  intro l
  induction l with
  | nil => intro best alpha beta g; rfl
  | cons p rest ih =>
    intro best alpha beta g
    simp only [abGridFoldMax]
    split
    · exact hf _ _ _ _
    · rw [ih, hf]

theorem abGridFoldMin_id (f : Board → Board → EInt → EInt → EInt × Board) (b : Board)
    (hf : ∀ g b2 a bt, (f g b2 a bt).2 = g) :
    ∀ (l : List (Fin 3 × Fin 3)) (best alpha beta : EInt) (g : Board),
      (abGridFoldMin f b l best alpha beta g).2 = g := by
  intro l
  induction l with
  | nil => intro best alpha beta g; rfl
  | cons p rest ih =>
    intro best alpha beta g
    simp only [abGridFoldMin]
    split
    · exact hf _ _ _ _
    · rw [ih, hf]

theorem minimax_grid_id : ∀ (fuel : Nat) (grid board : Board) (depth : Nat) (m : Bool),
    minimax_grid fuel grid board depth m = grid := by
  intro fuel
  induction fuel with
  | zero =>
    intro grid board depth m
    cases hst : game_status board with
    | none => simp [minimax_grid, hst]
    | some g => simp [minimax_grid, hst]
  | succ fuel ih =>
    intro grid board depth m
    cases hst : game_status board with
    | some g => simp [minimax_grid, hst]
    | none =>
      cases m with
      | true =>
        have hu : minimax_grid (fuel + 1) grid board depth true =
            mmGridFold (fun g b2 => minimax_grid fuel g b2 (depth + 1) false)
              board Cell.O (find_empty_spots board) grid := by
          simp only [minimax_grid, hst, if_pos]
        rw [hu]
        exact mmGridFold_id _ _ _ (fun g b2 => ih g b2 (depth + 1) false) _ _
      | false =>
        have hu : minimax_grid (fuel + 1) grid board depth false =
            mmGridFold (fun g b2 => minimax_grid fuel g b2 (depth + 1) true)
              board Cell.X (find_empty_spots board) grid := by
          simp only [minimax_grid, hst, Bool.false_eq_true, if_false]
        rw [hu]
        exact mmGridFold_id _ _ _ (fun g b2 => ih g b2 (depth + 1) true) _ _

theorem alpha_beta_grid_id : ∀ (fuel : Nat) (grid board : Board) (depth : Nat)
    (alpha beta : EInt) (m : Bool),
    (alpha_beta_grid fuel grid board depth alpha beta m).2 = grid := by
  intro fuel
  induction fuel with
  | zero =>
    intro grid board depth alpha beta m
    cases hst : game_status board with
    | none => simp [alpha_beta_grid, hst]
    | some g =>
      cases g with
      | X => simp [alpha_beta_grid, hst]
      | O => simp [alpha_beta_grid, hst]
      | draw => simp [alpha_beta_grid, hst]
  | succ fuel ih =>
    intro grid board depth alpha beta m
    cases hst : game_status board with
    | some g =>
      cases g with
      | X => simp [alpha_beta_grid, hst]
      | O => simp [alpha_beta_grid, hst]
      | draw => simp [alpha_beta_grid, hst]
    | none =>
      cases m with
      | true =>
        have hu : alpha_beta_grid (fuel + 1) grid board depth alpha beta true =
            abGridFoldMax (fun g b2 a2 bt2 => alpha_beta_grid fuel g b2 (depth + 1) a2 bt2 false)
              board (find_empty_spots board) ⊥ alpha beta grid := by
          simp only [alpha_beta_grid, hst, if_pos]
        rw [hu]
        exact abGridFoldMax_id _ _ (fun g b2 a bt => ih g b2 (depth + 1) a bt false) _ _ _ _ _
      | false =>
        have hu : alpha_beta_grid (fuel + 1) grid board depth alpha beta false =
            abGridFoldMin (fun g b2 a2 bt2 => alpha_beta_grid fuel g b2 (depth + 1) a2 bt2 true)
              board (find_empty_spots board) ⊤ alpha beta grid := by
          simp only [alpha_beta_grid, hst, Bool.false_eq_true, if_false]
        rw [hu]
        exact abGridFoldMin_id _ _ (fun g b2 a bt => ih g b2 (depth + 1) a bt true) _ _ _ _ _

/-! ### Move validity -/

/-- The cell Python reads after the bounds checks have passed
(the `% 3` keeps the embedding total; in the guarded branch the
coordinates already lie in `[0,2]`, where it is the identity). -/
def cellAt (b : Board) (row col : ℤ) : Cell :=
  b ⟨row.toNat % 3, Nat.mod_lt _ (by omega)⟩ ⟨col.toNat % 3, Nat.mod_lt _ (by omega)⟩

theorem check_valid_position_iff (b : Board) (row col : ℤ) :
    check_valid_position b row col = true ↔
      (0 ≤ row ∧ row ≤ 2 ∧ 0 ≤ col ∧ col ≤ 2 ∧ cellAt b row col = Cell.empty) := by
  unfold check_valid_position
  split_ifs with h1 h2 h3
  · simp only [Bool.false_eq_true, false_iff]
    rintro ⟨a1, a2, a3, a4, a5⟩
    omega
  · simp only [Bool.false_eq_true, false_iff]
    rintro ⟨a1, a2, a3, a4, a5⟩
    omega
  · simp only [Bool.false_eq_true, false_iff]
    rintro ⟨a1, a2, a3, a4, a5⟩
    exact h3 a5
  · simp only [true_iff]
    refine ⟨by omega, by omega, by omega, by omega, ?_⟩
    exact not_not.mp h3

theorem place_symbol_cases : ∀ (b : Board) (row col : ℤ) (s : Cell),
    ((place_symbol b row col s).2 = true ↔
      (0 ≤ row ∧ row ≤ 2 ∧ 0 ≤ col ∧ col ≤ 2 ∧ cellAt b row col = Cell.empty)) ∧
    ((place_symbol b row col s).2 = false → (place_symbol b row col s).1 = b) ∧
    ((place_symbol b row col s).2 = true →
      cellAt (place_symbol b row col s).1 row col = s ∧
      ∀ i j : Fin 3, ¬((i : ℤ) = row ∧ (j : ℤ) = col) →
        (place_symbol b row col s).1 i j = b i j) := by
  intro b row col s
  by_cases hcv : check_valid_position b row col = true
  · obtain ⟨hb1, hb2, hb3, hb4, hb5⟩ := (check_valid_position_iff b row col).mp hcv
    rw [place_symbol, if_pos hcv]
    refine ⟨⟨fun _ => ⟨hb1, hb2, hb3, hb4, hb5⟩, fun _ => rfl⟩, ?_, ?_⟩
    · intro h
      simp at h
    · intro _
      constructor
      · exact setCell_self b _ _ s
      · intro i j hij
        apply setCell_ne
        rintro ⟨hi, hj⟩
        apply hij
        constructor
        · rw [hi]
          show ((row.toNat % 3 : ℕ) : ℤ) = row
          omega
        · rw [hj]
          show ((col.toNat % 3 : ℕ) : ℤ) = col
          omega
  · rw [place_symbol, if_neg hcv]
    refine ⟨?_, fun _ => rfl, ?_⟩
    · simp only [Bool.false_eq_true, false_iff]
      intro hr
      exact hcv ((check_valid_position_iff b row col).mpr hr)
    · intro h
      simp at h

/-! ### Remaining glue -/

theorem searchValue_eq (b : Board) (p : Fin 3 × Fin 3) :
    searchValue Algo.minimax b p = searchValue Algo.alphaBeta b p := by
  simp only [searchValue, minimax_search, alpha_beta_search]
  exact (ab_eq_mm_val 9 _ 0 false).symm

theorem bestFold_algo_eq (b : Board) :
    ∀ (l : List (Fin 3 × Fin 3)) (bp : Option (Fin 3 × Fin 3)) (bv : EInt),
      bestFold Algo.minimax b l bp bv = bestFold Algo.alphaBeta b l bp bv := by
  intro l
  induction l with
  | nil => intro bp bv; rfl
  | cons p rest ih =>
    intro bp bv
    simp only [bestFold]
    rw [searchValue_eq b p]
    split
    · exact ih _ _
    · exact ih _ _

theorem le_abFoldMax_cnt (fab : Board → EInt → EInt → EInt × Nat × Bool) (b : Board) :
    ∀ (l : List (Fin 3 × Fin 3)) (best alpha beta : EInt) (cnt : Nat) (pr : Bool),
      cnt ≤ (abFoldMax fab b l best alpha beta cnt pr).2.1 := by
  intro l
  induction l with
  | nil => intro best alpha beta cnt pr; exact le_refl cnt
  | cons p rest ih =>
    intro best alpha beta cnt pr
    simp only [abFoldMax]
    split
    · exact Nat.le_add_right cnt _
    · exact le_trans (Nat.le_add_right cnt _) (ih _ _ _ _ _)

theorem le_abFoldMin_cnt (fab : Board → EInt → EInt → EInt × Nat × Bool) (b : Board) :
    ∀ (l : List (Fin 3 × Fin 3)) (best alpha beta : EInt) (cnt : Nat) (pr : Bool),
      cnt ≤ (abFoldMin fab b l best alpha beta cnt pr).2.1 := by
  intro l
  induction l with
  | nil => intro best alpha beta cnt pr; exact le_refl cnt
  | cons p rest ih =>
    intro best alpha beta cnt pr
    simp only [abFoldMin]
    split
    · exact Nat.le_add_right cnt _
    · exact le_trans (Nat.le_add_right cnt _) (ih _ _ _ _ _)

theorem alpha_beta_cnt_pos : ∀ (fuel : Nat) (b : Board) (depth : Nat)
    (alpha beta : EInt) (m : Bool), 1 ≤ (alpha_beta_fuel fuel b depth alpha beta m).2.1 := by
  intro fuel
  cases fuel with
  | zero =>
    intro b depth alpha beta m
    cases hst : game_status b with
    | none => simp [alpha_beta_fuel, hst]
    | some g =>
      cases g with
      | X => simp [alpha_beta_fuel, hst]
      | O => simp [alpha_beta_fuel, hst]
      | draw => simp [alpha_beta_fuel, hst]
  | succ fuel =>
    intro b depth alpha beta m
    cases hst : game_status b with
    | some g =>
      cases g with
      | X => simp [alpha_beta_fuel, hst]
      | O => simp [alpha_beta_fuel, hst]
      | draw => simp [alpha_beta_fuel, hst]
    | none =>
      cases m with
      | true =>
        have hu : alpha_beta_fuel (fuel + 1) b depth alpha beta true =
            abFoldMax (fun b2 a2 bt2 => alpha_beta_fuel fuel b2 (depth + 1) a2 bt2 false)
              b (find_empty_spots b) ⊥ alpha beta 1 false := by
          simp only [alpha_beta_fuel, hst, if_pos]
        rw [hu]
        exact le_abFoldMax_cnt _ _ _ _ _ _ _ _
      | false =>
        have hu : alpha_beta_fuel (fuel + 1) b depth alpha beta false =
            abFoldMin (fun b2 a2 bt2 => alpha_beta_fuel fuel b2 (depth + 1) a2 bt2 true)
              b (find_empty_spots b) ⊤ alpha beta 1 false := by
          simp only [alpha_beta_fuel, hst, Bool.false_eq_true, if_false]
        rw [hu]
        exact le_abFoldMin_cnt _ _ _ _ _ _ _ _

/-- The board of the spec's end-to-end scenario 2:
`[['X','X',' '], ['O','O',' '], [' ',' ',' ']]`. -/
def winBoard : Board :=
  ![![Cell.X, Cell.X, Cell.empty],
    ![Cell.O, Cell.O, Cell.empty],
    ![Cell.empty, Cell.empty, Cell.empty]]

/-! ### The recursive invocations an alpha-beta node performs

Which children an alpha-beta node actually recurses into depends on the
breaks.  `ab_invocations` reconstructs, from the spec's words ("the
number of recursive invocations performed"), the list of those calls:
each visited child board together with the window it was called with,
following the same row-major iteration and the same update-then-break
rule, with the search itself as the child evaluator. -/

def abExploredMax (f : Board → EInt → EInt → EInt × Nat × Bool) (b : Board) :
    List (Fin 3 × Fin 3) → EInt → EInt → List (Board × EInt × EInt)
  | [], _, _ => []
  | p :: rest, alpha, beta =>
    let r := f (setCell b p.1 p.2 Cell.O) alpha beta
    if beta ≤ max alpha r.1 then
      [(setCell b p.1 p.2 Cell.O, alpha, beta)]
    else
      (setCell b p.1 p.2 Cell.O, alpha, beta) ::
        abExploredMax f b rest (max alpha r.1) beta

def abExploredMin (f : Board → EInt → EInt → EInt × Nat × Bool) (b : Board) :
    List (Fin 3 × Fin 3) → EInt → EInt → List (Board × EInt × EInt)
  | [], _, _ => []
  | p :: rest, alpha, beta =>
    let r := f (setCell b p.1 p.2 Cell.X) alpha beta
    if min beta r.1 ≤ alpha then
      [(setCell b p.1 p.2 Cell.X, alpha, beta)]
    else
      (setCell b p.1 p.2 Cell.X, alpha, beta) ::
        abExploredMin f b rest alpha (min beta r.1)

/-- The recursive invocations `alpha_beta_search b depth alpha beta m`
performs: board and window of each visited child, in visiting order
(empty on a terminal board, where no child is expanded). -/
def ab_invocations (b : Board) (depth : Nat) (alpha beta : EInt) (m : Bool) :
    List (Board × EInt × EInt) :=
  match game_status b with
  | some _ => []
  | none =>
    if m then
      abExploredMax (fun b2 a2 bt2 => alpha_beta_search b2 (depth + 1) a2 bt2 false)
        b (find_empty_spots b) alpha beta
    else
      abExploredMin (fun b2 a2 bt2 => alpha_beta_search b2 (depth + 1) a2 bt2 true)
        b (find_empty_spots b) alpha beta

/-- The loop's counter is the entry count plus one contribution per
visited child, each the child call's own counter. -/
theorem abFoldMax_cnt_explored (f : Board → EInt → EInt → EInt × Nat × Bool) (b : Board) :
    ∀ (l : List (Fin 3 × Fin 3)) (best alpha beta : EInt) (cnt : Nat) (pr : Bool),
      (abFoldMax f b l best alpha beta cnt pr).2.1 =
        cnt + ((abExploredMax f b l alpha beta).map
          (fun t => (f t.1 t.2.1 t.2.2).2.1)).sum := by
  intro l
  induction l with
  | nil => intro best alpha beta cnt pr; simp [abFoldMax, abExploredMax]
  | cons p rest ih =>
    intro best alpha beta cnt pr
    simp only [abFoldMax, abExploredMax]
    split
    · simp
    · rw [ih]
      simp [List.sum_cons]
      omega

theorem abFoldMin_cnt_explored (f : Board → EInt → EInt → EInt × Nat × Bool) (b : Board) :
    ∀ (l : List (Fin 3 × Fin 3)) (best alpha beta : EInt) (cnt : Nat) (pr : Bool),
      (abFoldMin f b l best alpha beta cnt pr).2.1 =
        cnt + ((abExploredMin f b l alpha beta).map
          (fun t => (f t.1 t.2.1 t.2.2).2.1)).sum := by
  intro l
  induction l with
  | nil => intro best alpha beta cnt pr; simp [abFoldMin, abExploredMin]
  | cons p rest ih =>
    intro best alpha beta cnt pr
    simp only [abFoldMin, abExploredMin]
    split
    · simp
    · rw [ih]
      simp [List.sum_cons]
      omega

theorem abExploredMax_congr (f1 f2 : Board → EInt → EInt → EInt × Nat × Bool) (b : Board)
    (l : List (Fin 3 × Fin 3))
    (hf : ∀ p ∈ l, ∀ a bt : EInt,
      f1 (setCell b p.1 p.2 Cell.O) a bt = f2 (setCell b p.1 p.2 Cell.O) a bt) :
    ∀ (alpha beta : EInt),
      abExploredMax f1 b l alpha beta = abExploredMax f2 b l alpha beta := by
  induction l with
  | nil => intro alpha beta; rfl
  | cons p rest ih =>
    intro alpha beta
    simp only [abExploredMax]
    rw [hf p (List.mem_cons_self p rest) alpha beta]
    split
    · rfl
    · rw [ih (fun q hq => hf q (List.mem_cons_of_mem p hq))]

theorem abExploredMin_congr (f1 f2 : Board → EInt → EInt → EInt × Nat × Bool) (b : Board)
    (l : List (Fin 3 × Fin 3))
    (hf : ∀ p ∈ l, ∀ a bt : EInt,
      f1 (setCell b p.1 p.2 Cell.X) a bt = f2 (setCell b p.1 p.2 Cell.X) a bt) :
    ∀ (alpha beta : EInt),
      abExploredMin f1 b l alpha beta = abExploredMin f2 b l alpha beta := by
  induction l with
  | nil => intro alpha beta; rfl
  | cons p rest ih =>
    intro alpha beta
    simp only [abExploredMin]
    rw [hf p (List.mem_cons_self p rest) alpha beta]
    split
    · rfl
    · rw [ih (fun q hq => hf q (List.mem_cons_of_mem p hq))]

/-- Every entry of the visited-children list is one of the loop's
boards: an empty cell of `l` filled with the side's symbol. -/
theorem abExploredMax_mem (f : Board → EInt → EInt → EInt × Nat × Bool) (b : Board) :
    ∀ (l : List (Fin 3 × Fin 3)) (alpha beta : EInt),
      ∀ t ∈ abExploredMax f b l alpha beta,
        ∃ p ∈ l, t.1 = setCell b p.1 p.2 Cell.O := by
  intro l
  induction l with
  | nil => intro alpha beta t ht; cases ht
  | cons p rest ih =>
    intro alpha beta t ht
    simp only [abExploredMax] at ht
    rcases (by exact ht : t ∈ _) with ht2
    revert ht2
    split
    · intro ht2
      rcases List.mem_singleton.mp ht2 with rfl
      exact ⟨p, List.mem_cons_self p rest, rfl⟩
    · intro ht2
      rcases List.mem_cons.mp ht2 with rfl | ht3
      · exact ⟨p, List.mem_cons_self p rest, rfl⟩
      · obtain ⟨q, hq, hq2⟩ := ih _ _ t ht3
        exact ⟨q, List.mem_cons_of_mem p hq, hq2⟩

theorem abExploredMin_mem (f : Board → EInt → EInt → EInt × Nat × Bool) (b : Board) :
    ∀ (l : List (Fin 3 × Fin 3)) (alpha beta : EInt),
      ∀ t ∈ abExploredMin f b l alpha beta,
        ∃ p ∈ l, t.1 = setCell b p.1 p.2 Cell.X := by
  intro l
  induction l with
  | nil => intro alpha beta t ht; cases ht
  | cons p rest ih =>
    intro alpha beta t ht
    simp only [abExploredMin] at ht
    rcases (by exact ht : t ∈ _) with ht2
    revert ht2
    split
    · intro ht2
      rcases List.mem_singleton.mp ht2 with rfl
      exact ⟨p, List.mem_cons_self p rest, rfl⟩
    · intro ht2
      rcases List.mem_cons.mp ht2 with rfl | ht3
      · exact ⟨p, List.mem_cons_self p rest, rfl⟩
      · obtain ⟨q, hq, hq2⟩ := ih _ _ t ht3
        exact ⟨q, List.mem_cons_of_mem p hq, hq2⟩

/-- A non-terminal alpha-beta call's counter increment is exactly one
(its own) plus the increments of the recursive invocations it performs. -/
theorem alpha_beta_cnt_decomp (b : Board) (depth : Nat) (alpha beta : EInt) (m : Bool)
    (hst : game_status b = none) :
    (alpha_beta_search b depth alpha beta m).2.1 =
      1 + ((ab_invocations b depth alpha beta m).map
        (fun t => (alpha_beta_search t.1 (depth + 1) t.2.1 t.2.2 (!m)).2.1)).sum := by
  have h9 := countEmpty_le_nine b
  have hchild : ∀ p ∈ find_empty_spots b, ∀ (c : Cell), c ≠ Cell.empty →
      ∀ (a bt : EInt) (m2 : Bool),
      alpha_beta_fuel 8 (setCell b p.1 p.2 c) (depth + 1) a bt m2 =
        alpha_beta_fuel 9 (setCell b p.1 p.2 c) (depth + 1) a bt m2 := by
    intro p hp c hc a bt m2
    have hemp : b p.1 p.2 = Cell.empty := (mem_find_empty_spots b p).mp hp
    have hce := countEmpty_setCell b p.1 p.2 c hemp hc
    exact alpha_beta_fuel_eq 8 9 _ (depth + 1) a bt m2 (by omega) (by omega)
  cases m with
  | true =>
    have hu : alpha_beta_fuel 9 b depth alpha beta true =
        abFoldMax (fun b2 a2 bt2 => alpha_beta_fuel 8 b2 (depth + 1) a2 bt2 false)
          b (find_empty_spots b) ⊥ alpha beta 1 false := by
      simp only [alpha_beta_fuel, hst, if_pos]
    have hinv : ab_invocations b depth alpha beta true =
        abExploredMax (fun b2 a2 bt2 => alpha_beta_fuel 8 b2 (depth + 1) a2 bt2 false)
          b (find_empty_spots b) alpha beta := by
      rw [ab_invocations]
      rw [hst]
      simp only [if_pos]
      exact (abExploredMax_congr _ _ b (find_empty_spots b)
        (fun p hp a bt => hchild p hp Cell.O (by decide) a bt false) alpha beta).symm
    rw [alpha_beta_search, hu, abFoldMax_cnt_explored, hinv]
    simp only [Bool.not_true]
    have hmap2 : ∀ t ∈ abExploredMax
        (fun b2 a2 bt2 => alpha_beta_fuel 8 b2 (depth + 1) a2 bt2 false)
        b (find_empty_spots b) alpha beta,
        (alpha_beta_fuel 8 t.1 (depth + 1) t.2.1 t.2.2 false).2.1 =
        (alpha_beta_search t.1 (depth + 1) t.2.1 t.2.2 false).2.1 := by
      intro t ht
      obtain ⟨p, hp, hp2⟩ := abExploredMax_mem _ b (find_empty_spots b) alpha beta t ht
      rw [alpha_beta_search, hp2, hchild p hp Cell.O (by decide) t.2.1 t.2.2 false]
    rw [List.map_congr_left hmap2]
  | false =>
    have hu : alpha_beta_fuel 9 b depth alpha beta false =
        abFoldMin (fun b2 a2 bt2 => alpha_beta_fuel 8 b2 (depth + 1) a2 bt2 true)
          b (find_empty_spots b) ⊤ alpha beta 1 false := by
      simp only [alpha_beta_fuel, hst, Bool.false_eq_true, if_false]
    have hinv : ab_invocations b depth alpha beta false =
        abExploredMin (fun b2 a2 bt2 => alpha_beta_fuel 8 b2 (depth + 1) a2 bt2 true)
          b (find_empty_spots b) alpha beta := by
      rw [ab_invocations]
      rw [hst]
      simp only [Bool.false_eq_true, if_false]
      exact (abExploredMin_congr _ _ b (find_empty_spots b)
        (fun p hp a bt => hchild p hp Cell.X (by decide) a bt true) alpha beta).symm
    rw [alpha_beta_search, hu, abFoldMin_cnt_explored, hinv]
    simp only [Bool.not_false]
    have hmap2 : ∀ t ∈ abExploredMin
        (fun b2 a2 bt2 => alpha_beta_fuel 8 b2 (depth + 1) a2 bt2 true)
        b (find_empty_spots b) alpha beta,
        (alpha_beta_fuel 8 t.1 (depth + 1) t.2.1 t.2.2 true).2.1 =
        (alpha_beta_search t.1 (depth + 1) t.2.1 t.2.2 true).2.1 := by
      intro t ht
      obtain ⟨p, hp, hp2⟩ := abExploredMin_mem _ b (find_empty_spots b) alpha beta t ht
      rw [alpha_beta_search, hp2, hchild p hp Cell.X (by decide) t.2.1 t.2.2 true]
    rw [List.map_congr_left hmap2]

/-! ### The claims -/

/-- C1: for every board and side, `alpha_beta_search` over the full
window returns the same score as `minimax_search`; `calculate_best_move`
picks the same move with the same tracked best value under either
strategy; alpha-beta's total `call_count` increment never exceeds
minimax's and is strictly smaller whenever a break pruned a sibling. -/
theorem claim_alpha_beta_refines_minimax :
    ∀ (b : Board) (depth : Nat) (m : Bool),
      (alpha_beta_search b depth ⊥ ⊤ m).1 = (minimax_search b depth m).1 ∧
      calc_best Algo.minimax b = calc_best Algo.alphaBeta b ∧
      (alpha_beta_search b depth ⊥ ⊤ m).2.1 ≤ (minimax_search b depth m).2 ∧
      ((alpha_beta_search b depth ⊥ ⊤ m).2.2 = true →
        (alpha_beta_search b depth ⊥ ⊤ m).2.1 < (minimax_search b depth m).2) := by
  intro b depth m
  have hcnt := alpha_beta_cnt 9 b depth m ⊥ ⊤ (bot_lt_top : (⊥ : EInt) < ⊤)
  exact ⟨ab_eq_mm_val 9 b depth m,
    by rw [calc_best, calc_best, bestFold_algo_eq],
    hcnt.1, hcnt.2⟩

/-- C2: `minimax_search` returns exactly the reference minimax value
`specMinimax`: `10 - depth` on an `'O'` win, `-10 + depth` on an `'X'`
win, `0` on a draw, and otherwise the maximum (or minimum) over the
children obtained by playing each empty cell in row-major order. -/
theorem claim_minimax_is_reference :
    ∀ (b : Board) (depth : Nat) (m : Bool),
      (minimax_search b depth m).1 = iv (specMinimax b depth m) :=
  fun b depth m =>
    minimax_fuel_spec 9 b depth m (countEmpty_le_nine b)

/-- C3: whenever the board still has an empty cell,
`calculate_best_move` (either strategy) returns a move at an empty cell;
it returns `none` exactly when no empty cell remains. -/
theorem claim_best_move_hits_empty_cell :
    ∀ (algo : Algo) (b : Board),
      (find_empty_spots b ≠ [] →
        ∃ p, calculate_best_move algo b = some p ∧ b p.1 p.2 = Cell.empty) ∧
      (calculate_best_move algo b = none ↔ find_empty_spots b = []) := by
  intro algo b
  constructor
  · intro hne
    obtain ⟨p, hp, hmem⟩ := calculate_best_move_some algo b hne
    exact ⟨p, hp, (mem_find_empty_spots b p).mp hmem⟩
  · constructor
    · intro hnone
      by_contra hne
      obtain ⟨p, hp, _⟩ := calculate_best_move_some algo b hne
      rw [hp] at hnone
      cases hnone
    · intro hnil
      rw [calculate_best_move, calc_best, hnil]
      rfl

/-- C4: `calculate_best_move` returns the first candidate, in row-major
enumeration order, whose search score attains the maximal score
`bestValue` — the running best is only overwritten on a strictly
greater value. -/
theorem claim_best_move_first_maximal :
    ∀ (algo : Algo) (b : Board),
      calculate_best_move algo b =
        (find_empty_spots b).find?
          (fun p => decide (searchValue algo b p = bestValue algo b)) :=
  fun algo b => calculate_best_move_eq_find algo b

/-- C5: on `[['X','X',' '], ['O','O',' '], [' ',' ',' ']]` with `'O'` to
move, both strategies select the immediate winning move `(1, 2)`, whose
candidate search runs at depth 0, so the tracked value is `10 - 0`. -/
theorem claim_scenario_two_wins :
    calc_best Algo.minimax winBoard = (some (1, 2), iv (10 - (0 : ℤ))) ∧
    calc_best Algo.alphaBeta winBoard = (some (1, 2), iv (10 - (0 : ℤ))) ∧
    searchValue Algo.minimax winBoard (1, 2) = iv (10 - (0 : ℤ)) ∧
    searchValue Algo.alphaBeta winBoard (1, 2) = iv (10 - (0 : ℤ)) ∧
    winBoard 1 2 = Cell.empty := by
  decide

/-- C6: `place_symbol` succeeds exactly on an in-range empty cell,
writing the symbol there and touching no other cell; on any other
integer coordinates it reports failure and leaves the grid unchanged. -/
theorem claim_place_symbol_guarded :
    ∀ (b : Board) (row col : ℤ) (s : Cell),
      ((place_symbol b row col s).2 = true ↔
        (0 ≤ row ∧ row ≤ 2 ∧ 0 ≤ col ∧ col ≤ 2 ∧ cellAt b row col = Cell.empty)) ∧
      ((place_symbol b row col s).2 = false → (place_symbol b row col s).1 = b) ∧
      ((place_symbol b row col s).2 = true →
        cellAt (place_symbol b row col s).1 row col = s ∧
        ∀ i j : Fin 3, ¬((i : ℤ) = row ∧ (j : ℤ) = col) →
          (place_symbol b row col s).1 i j = b i j) :=
  place_symbol_cases

/-- C7: both searches leave the instance's real grid exactly as it was:
the temporary swap of `self.grid` to the simulated board is always
undone, and children are built only on fresh copies. -/
theorem claim_searches_restore_grid :
    ∀ (fuel : Nat) (grid board : Board) (depth : Nat) (alpha beta : EInt) (m : Bool),
      minimax_grid fuel grid board depth m = grid ∧
      (alpha_beta_grid fuel grid board depth alpha beta m).2 = grid :=
  fun fuel grid board depth alpha beta m =>
    ⟨minimax_grid_id fuel grid board depth m,
     alpha_beta_grid_id fuel grid board depth alpha beta m⟩

/-- C8: every invocation of either search adds exactly one to
`call_count`: a terminal call adds exactly 1, every call adds at least 1
(so the counter is monotone), a non-terminal minimax call adds 1 plus
the additions of its recursive invocations (one per empty cell), and a
non-terminal alpha-beta call adds 1 plus the additions of the recursive
invocations it performs (`ab_invocations`: the visited children with
their windows), so each search's total counter increase equals its
number of invocations. -/
theorem claim_call_count_one_per_invocation :
    ∀ (b : Board) (depth : Nat) (m : Bool) (alpha beta : EInt),
      1 ≤ (minimax_search b depth m).2 ∧
      1 ≤ (alpha_beta_search b depth alpha beta m).2.1 ∧
      (game_status b ≠ none →
        (minimax_search b depth m).2 = 1 ∧
        (alpha_beta_search b depth alpha beta m).2.1 = 1) ∧
      (game_status b = none →
        (alpha_beta_search b depth alpha beta m).2.1 =
          1 + ((ab_invocations b depth alpha beta m).map
            (fun t => (alpha_beta_search t.1 (depth + 1) t.2.1 t.2.2 (!m)).2.1)).sum) ∧
      (game_status b = none →
        (minimax_search b depth m).2 = 1 +
          ((find_empty_spots b).map (fun p =>
            (minimax_search (setCell b p.1 p.2 (if m then Cell.O else Cell.X))
              (depth + 1) (!m)).2)).sum) := by
  intro b depth m alpha beta
  refine ⟨minimax_cnt_pos 9 b depth m, alpha_beta_cnt_pos 9 b depth alpha beta m, ?_,
    fun hst => alpha_beta_cnt_decomp b depth alpha beta m hst, ?_⟩
  · intro hne
    cases hst : game_status b with
    | none => exact absurd hst hne
    | some g =>
      cases g with
      | X => constructor
             · simp [minimax_search, minimax_fuel, hst]
             · simp [alpha_beta_search, alpha_beta_fuel, hst]
      | O => constructor
             · simp [minimax_search, minimax_fuel, hst]
             · simp [alpha_beta_search, alpha_beta_fuel, hst]
      | draw => constructor
                · simp [minimax_search, minimax_fuel, hst]
                · simp [alpha_beta_search, alpha_beta_fuel, hst]
  · intro hst
    have hchild9 : ∀ p ∈ find_empty_spots b, ∀ c : Cell, c ≠ Cell.empty →
        minimax_fuel 8 (setCell b p.1 p.2 c) (depth + 1) (!m) =
          minimax_fuel 9 (setCell b p.1 p.2 c) (depth + 1) (!m) := by
      intro p hp c hc
      have hemp : b p.1 p.2 = Cell.empty := (mem_find_empty_spots b p).mp hp
      have hce := countEmpty_setCell b p.1 p.2 c hemp hc
      have h9 := countEmpty_le_nine b
      exact minimax_fuel_eq 8 9 _ (depth + 1) (!m) (by omega) (by omega)
    cases m with
    | true =>
      have hu : minimax_fuel 9 b depth true =
          mmFoldMax (fun b2 => minimax_fuel 8 b2 (depth + 1) false)
            b (find_empty_spots b) ⊥ 1 := by
        simp only [minimax_fuel, hst, if_pos]
      rw [minimax_search, hu, mmFoldMax_snd]
      have hmap : ∀ p ∈ find_empty_spots b,
          (minimax_fuel 8 (setCell b p.1 p.2 Cell.O) (depth + 1) false).2 =
          (minimax_search (setCell b p.1 p.2 (if true then Cell.O else Cell.X))
            (depth + 1) (!true)).2 := by
        intro p hp
        have h2 := hchild9 p hp Cell.O (by decide)
        simp only [Bool.not_true] at h2
        simp only [minimax_search, Bool.not_true, reduceIte]
        exact congrArg Prod.snd h2
      rw [List.map_congr_left hmap]
    | false =>
      have hu : minimax_fuel 9 b depth false =
          mmFoldMin (fun b2 => minimax_fuel 8 b2 (depth + 1) true)
            b (find_empty_spots b) ⊤ 1 := by
        simp only [minimax_fuel, hst, Bool.false_eq_true, if_false]
      rw [minimax_search, hu, mmFoldMin_snd]
      have hmap : ∀ p ∈ find_empty_spots b,
          (minimax_fuel 8 (setCell b p.1 p.2 Cell.X) (depth + 1) true).2 =
          (minimax_search (setCell b p.1 p.2 (if false then Cell.O else Cell.X))
            (depth + 1) (!false)).2 := by
        intro p hp
        have h2 := hchild9 p hp Cell.X (by decide)
        simp only [Bool.not_false] at h2
        simp only [minimax_search, Bool.not_false, reduceIte]
        exact congrArg Prod.snd h2
      rw [List.map_congr_left hmap]

/-- C9: both searches terminate within the 9-cell bound: any fuel of at
least 9 computes the same answer as the canonical `minimax_search` /
`alpha_beta_search` (fuel 9), the number of empty cells never exceeds 9,
and each recursive step fills exactly one empty cell. -/
theorem claim_searches_terminate :
    ∀ (b : Board) (extra : Nat) (depth : Nat) (m : Bool) (alpha beta : EInt),
      minimax_fuel (9 + extra) b depth m = minimax_search b depth m ∧
      alpha_beta_fuel (9 + extra) b depth alpha beta m =
        alpha_beta_search b depth alpha beta m ∧
      countEmpty b ≤ 9 ∧
      (∀ p ∈ find_empty_spots b, ∀ c : Cell, c ≠ Cell.empty →
        countEmpty (setCell b p.1 p.2 c) + 1 = countEmpty b) := by
  intro b extra depth m alpha beta
  have h9 := countEmpty_le_nine b
  refine ⟨minimax_fuel_eq (9 + extra) 9 b depth m (by omega) h9,
    alpha_beta_fuel_eq (9 + extra) 9 b depth alpha beta m (by omega) h9, h9, ?_⟩
  intro p hp c hc
  exact countEmpty_setCell b p.1 p.2 c ((mem_find_empty_spots b p).mp hp) hc

/-- C10: `check_valid_position` answers `true` exactly on an in-range
empty cell, and any out-of-range integer coordinate — negative values
included — is rejected before the grid is ever read, so Python's
negative-index wraparound can never validate a cell. -/
theorem claim_bounds_before_indexing :
    ∀ (b : Board) (row col : ℤ),
      (check_valid_position b row col = true ↔
        (0 ≤ row ∧ row ≤ 2 ∧ 0 ≤ col ∧ col ≤ 2 ∧ cellAt b row col = Cell.empty)) ∧
      ((row < 0 ∨ 2 < row ∨ col < 0 ∨ 2 < col) →
        check_valid_position b row col = false) := by
  intro b row col
  refine ⟨check_valid_position_iff b row col, ?_⟩
  intro h
  cases hb : check_valid_position b row col with
  | false => rfl
  | true =>
    obtain ⟨a1, a2, a3, a4, _⟩ := (check_valid_position_iff b row col).mp hb
    rcases h with h | h | h | h
    · omega
    · omega
    · omega
    · omega

/-- On the scenario-2 board the alpha-beta search really does prune:
the flag is set and 23 invocations replace minimax's 145, so the strict
part of the count comparison is not vacuous. -/
theorem pruning_triggers_on_winBoard :
    (alpha_beta_search winBoard 0 ⊥ ⊤ true).2.2 = true ∧
    (alpha_beta_search winBoard 0 ⊥ ⊤ true).2.1 = 23 ∧
    (minimax_search winBoard 0 true).2 = 145 := by
  decide
